import Mathlib

/-!
# get-feed-posts: the per-identifier pipeline of `get_posts.go`

A shallow embedding of `worker`, `savePostsToDB`, `fetchMetadata`, `contains`
and `containsNull` from `src/get-feed-posts/get_posts.go`, followed by the
properties of the pagination / dedup / persist pipeline.

Modelling conventions.

* The remote API (`bsky.FeedGetFeed`), the JSON encoder and the database are
  collaborators of the program.  Their answers are inputs of the model: an
  `Env` gives the response of the API to the k-th request of a run, the result
  of `json.Marshal` on a post, and the faults the database raises during the
  k-th call of `savePostsToDB`.
* The store holds the two relations the program writes.  The `metadata` column
  of `feed_generators` is kept as the decoded `FeedGeneratorMetadata`
  (`json.Marshal` followed by `json.Unmarshal` is the identity on it).
* A transaction works on a private copy of the store.  A statement that fails
  aborts the transaction (PostgreSQL), and committing an aborted transaction
  applies nothing.
* The `for` loop of `worker` has no bound of its own, so the loop is run with
  fuel; a run that uses up its fuel reports `Outcome.outOfFuel`.
* Every call that leaves the process is recorded in a trace of events.
-/

namespace FeedTracker

/-! ## Data model -/

/-- The part of `bsky.FeedDefs_FeedViewPost` the pipeline reads: `post.Post.Uri`,
and everything else of the record as one opaque body. -/
structure Post where
  Uri : String
  body : String
deriving DecidableEq, Repr

/-- Go: `type FeedData struct { Cursor *string; Feed []*bsky.FeedDefs_FeedViewPost }`. -/
structure FeedData where
  Cursor : Option String
  Feed : List Post
deriving DecidableEq, Repr

/-- Go: `type FeedGeneratorMetadata struct { PostURIs []string }`. -/
structure FeedGeneratorMetadata where
  PostURIs : List String
deriving DecidableEq, Repr

/-- The two relations behind `db`: `feed_generators (aturi, metadata)` and
`posts (uri, post_data)`. -/
structure Store where
  feed_generators : List (String × FeedGeneratorMetadata)
  posts : List (String × String)
deriving DecidableEq, Repr

/-- Calls that leave the process, in the order they are made. -/
inductive Event where
  | query (aturi : String)
  | getFeed (cursor : String)
  | txBegin
  | execUpsert (aturi : String) (metadata : FeedGeneratorMetadata)
  | execInsert (uri : String) (postData : String)
  | txCommit
  | txRollback
deriving DecidableEq, Repr

/-- Faults the database and the metadata encoder raise during one call of
`savePostsToDB`. -/
structure Faults where
  beginFails : Bool
  marshalMetadataFails : Bool
  upsertFails : Bool
  insertFails : String → Bool
  commitFails : Bool

/-- The collaborators of one run of `worker`. -/
structure Env where
  /-- the `SELECT` of `fetchMetadata` (or the decoding of its row) fails -/
  queryFails : Bool
  /-- the answer of `bsky.FeedGetFeed` to the k-th request of the run, made with the given cursor -/
  getFeed : Nat → String → Except String FeedData
  /-- the result of `json.Marshal(post)`, `none` when it returns an error -/
  marshalPost : Post → Option String
  /-- the faults raised during the k-th call of `savePostsToDB` of the run -/
  faults : Nat → Faults

/-! ## Helpers of the source -/

/-- Go:
```go
func contains(slice []string, val string) bool {
	for _, item := range slice { if item == val { return true } }
	return false
}
``` -/
def contains : List String → String → Bool
  | [], _ => false
  | item :: rest, val => if item = val then true else contains rest val

/-- Substring test on character lists, the meaning of `strings.Contains`. -/
def stringsContains : List Char → List Char → Bool
  | [], substr => substr.isEmpty
  | c :: s, substr => substr.isPrefixOf (c :: s) || stringsContains s substr

/-- Go: `func containsNull(cursor string) bool { return strings.Contains(cursor, "null") }`. -/
def containsNull (cursor : String) : Bool :=
  stringsContains cursor.data "null".data

/-! ## The store -/

/-- The row of `feed_generators` for `aturi`, if there is one. -/
def lookupMetadata : List (String × FeedGeneratorMetadata) → String → Option FeedGeneratorMetadata
  | [], _ => none
  | (k, v) :: rest, aturi => if k = aturi then some v else lookupMetadata rest aturi

/-- SQL: `INSERT INTO feed_generators (aturi, metadata) VALUES ($1, $2)
ON CONFLICT (aturi) DO UPDATE SET metadata = $2`. -/
def upsertMetadata : List (String × FeedGeneratorMetadata) → String → FeedGeneratorMetadata →
    List (String × FeedGeneratorMetadata)
  | [], aturi, m => [(aturi, m)]
  | (k, v) :: rest, aturi, m =>
    if k = aturi then (k, m) :: rest else (k, v) :: upsertMetadata rest aturi m

/-- Modelled from the spec: the schema of `posts` is not part of the sources; the
spec gives the relation insert-if-absent semantics keyed by ContentID, so
`INSERT INTO posts (uri, post_data) VALUES ($1, $2) ON CONFLICT DO NOTHING` adds the
row only when no row has that `uri`. -/
def insertPost (posts : List (String × String)) (uri postData : String) : List (String × String) :=
  if posts.any (fun row => row.1 = uri) then posts else posts ++ [(uri, postData)]

/-- Go: `fetchMetadata(ctx, nil, uri)`: the stored metadata, an empty one when there is
no row (`sql.ErrNoRows`), an error when the query or the decoding fails. -/
def fetchMetadata (queryFails : Bool) (db : Store) (uri : String) :
    Except String FeedGeneratorMetadata :=
  if queryFails then .error "error fetching metadata"
  else
    match lookupMetadata db.feed_generators uri with
    | none => .ok ⟨[]⟩
    | some metadata => .ok metadata

/-! ## savePostsToDB -/

/-- An open transaction: its private copy of the store, and whether a statement failed. -/
structure Tx where
  work : Store
  aborted : Bool
deriving DecidableEq, Repr

/-- The point where the body of `savePostsToDB` executes a `return`: the value being
returned, the function-scope variable `err` that the deferred function reads, the
transaction and the calls made so far. -/
structure SaveExit where
  ret : Option String
  err : Option String
  tx : Tx
  events : List Event
deriving DecidableEq, Repr

/-- What `savePostsToDB` leaves behind: the returned error, the store and the calls made. -/
structure SaveResult where
  ret : Option String
  db : Store
  events : List Event
deriving DecidableEq, Repr

/-- Go: the loop `for _, post := range newPosts { ... }` of `savePostsToDB`.
`postData, err := json.Marshal(post)` declares a new `err` in the scope of the loop body,
and `_, err = tx.Exec(...)` assigns that one, so the function-scope `err` (here `outerErr`)
is not touched by the loop. -/
def insertLoop (f : Faults) (marshalPost : Post → Option String) (outerErr : Option String) :
    List Post → Tx → List Event → SaveExit
  | [], tx, events => ⟨none, outerErr, tx, events⟩
  | post :: rest, tx, events =>
    match marshalPost post with
    | none => ⟨some "error marshalling post data", outerErr, tx, events⟩
    | some postData =>
      let events := events ++ [Event.execInsert post.Uri postData]
      if f.insertFails post.Uri then
        ⟨some "error inserting into posts", outerErr, { tx with aborted := true }, events⟩
      else
        insertLoop f marshalPost outerErr rest
          { tx with work := { tx.work with posts := insertPost tx.work.posts post.Uri postData } }
          events

/-- Go: the body of `savePostsToDB` after `db.Begin()` succeeded, up to its `return`. -/
def saveBody (f : Faults) (marshalPost : Post → Option String) (db : Store) (aturi : String)
    (newPosts : List Post) (metadata : FeedGeneratorMetadata) : SaveExit :=
  let tx : Tx := ⟨db, false⟩
  let events := [Event.txBegin]
  -- metadataJSON, err := json.Marshal(metadata)   (assigns the function-scope err)
  if f.marshalMetadataFails then
    ⟨some "error marshalling metadata", some "json: error", tx, events⟩
  else
    -- _, err = tx.Exec(query, aturi, metadataJSON)
    let events := events ++ [Event.execUpsert aturi metadata]
    if f.upsertFails then
      ⟨some "error updating feed_generators", some "pq: error", { tx with aborted := true }, events⟩
    else
      insertLoop f marshalPost none newPosts
        { tx with work :=
            { tx.work with
              feed_generators := upsertMetadata tx.work.feed_generators aturi metadata } }
        events

/-- Go: `tx.Commit()`: the private copy becomes the store, unless the commit fails or the
transaction was aborted by a failed statement. -/
def commitTx (f : Faults) (tx : Tx) (db : Store) : Store :=
  if f.commitFails || tx.aborted then db else tx.work

/-- Go: `func savePostsToDB(ctx, aturi, newPosts, metadata) error`.  The result is unnamed,
so the value given to `return` is what the caller receives; the deferred function reads
the function-scope `err`, rolls back when it is non-nil and commits otherwise, and its
assignment `err = tx.Commit()` does not reach the caller. -/
def savePostsToDB (f : Faults) (marshalPost : Post → Option String) (db : Store)
    (aturi : String) (newPosts : List Post) (metadata : FeedGeneratorMetadata) : SaveResult :=
  if f.beginFails then
    ⟨some "error beginning transaction", db, [Event.txBegin]⟩
  else
    let exit := saveBody f marshalPost db aturi newPosts metadata
    match exit.err with
    | some _ => ⟨exit.ret, db, exit.events ++ [Event.txRollback]⟩
    | none => ⟨exit.ret, commitTx f exit.tx db, exit.events ++ [Event.txCommit]⟩

/-! ## worker -/

/-- One round of the dedup loop of `worker`:
```go
if !contains(metadata.PostURIs, post.Post.Uri) {
	newPosts = append(newPosts, post)
	metadata.PostURIs = append(metadata.PostURIs, post.Post.Uri)
}
``` -/
def dedupStep (acc : List Post × List String) (post : Post) : List Post × List String :=
  if !contains acc.2 post.Uri then (acc.1 ++ [post], acc.2 ++ [post.Uri]) else acc

/-- Go: `var newPosts ...; for _, post := range feedData.Feed { ... }`: the new posts and the
extended `metadata.PostURIs`. -/
def dedup (feed : List Post) (postURIs : List String) : List Post × List String :=
  feed.foldl dedupStep ([], postURIs)

/-- Go: the cursor handling at the end of the loop body (`if output.Cursor != nil { ... }
else { break }`): `none` for `break`, otherwise the next `cursor` and `prevCursors`. -/
def advance (prevCursors : List String) (outCursor : Option String) :
    Option (String × List String) :=
  match outCursor with
  | none => none
  | some c =>
    if containsNull c then none
    else if contains prevCursors c then none
    else
      let prevCursors := prevCursors ++ [c]
      let prevCursors := if prevCursors.length > 2 then prevCursors.drop 1 else prevCursors
      some (c, prevCursors)

/-- The variables of `worker` at the head of its `for` loop, with the store, the number of
requests made so far and the trace. -/
structure LoopState where
  cursor : String
  prevCursors : List String
  metadata : FeedGeneratorMetadata
  db : Store
  page : Nat
  trace : List Event
deriving DecidableEq, Repr

/-- How a run ended: `worker` returned (with its error, `none` for nil), or the fuel of the
model was used up while the loop was still going. -/
inductive Outcome where
  | returned (err : Option String)
  | outOfFuel
deriving DecidableEq, Repr

/-- A run of `worker`: how it ended, the store it left and the calls it made. -/
structure Run where
  outcome : Outcome
  db : Store
  trace : List Event
deriving DecidableEq, Repr

/-- Go: one pass through the body of the `for` loop of `worker`: either the loop is left
(`break` or `return`), or the next pass starts from a new state. -/
def iteration (env : Env) (uri : String) (st : LoopState) : Run ⊕ LoopState :=
  let trace := st.trace ++ [Event.getFeed st.cursor]
  match env.getFeed st.page st.cursor with
  | .error e => .inl ⟨.returned (some e), st.db, trace⟩
  | .ok output =>
    if output.Feed.length = 0 ∧ output.Cursor ≠ none then
      .inl ⟨.returned none, st.db, trace⟩
    else
      let d := dedup output.Feed st.metadata.PostURIs
      let newPosts := d.1
      let metadata : FeedGeneratorMetadata := ⟨d.2⟩
      if newPosts.length = 0 ∧ output.Feed.length > 0 then
        .inl ⟨.returned none, st.db, trace⟩
      else
        let saved := savePostsToDB (env.faults st.page) env.marshalPost st.db uri newPosts metadata
        let trace := trace ++ saved.events
        match saved.ret with
        | some e => .inl ⟨.returned (some e), saved.db, trace⟩
        | none =>
          match advance st.prevCursors output.Cursor with
          | none => .inl ⟨.returned none, saved.db, trace⟩
          | some (cursor, prevCursors) =>
            .inr ⟨cursor, prevCursors, metadata, saved.db, st.page + 1, trace⟩

/-- Go: the `for` loop of `worker`, run for at most `fuel` passes. -/
def workerLoop (env : Env) (uri : String) : Nat → LoopState → Run
  | 0, st => ⟨.outOfFuel, st.db, st.trace⟩
  | fuel + 1, st =>
    match iteration env uri st with
    | .inl run => run
    | .inr st => workerLoop env uri fuel st

/-- The state in which `worker` enters its loop. -/
def initState (db : Store) (uri : String) (metadata : FeedGeneratorMetadata) : LoopState :=
  ⟨"", [], metadata, db, 0, [Event.query uri]⟩

/-- Go: `func worker(ctx, client, uri, errCh) error`. -/
def worker (env : Env) (db : Store) (uri : String) (fuel : Nat) : Run :=
  match fetchMetadata env.queryFails db uri with
  | .error e => ⟨.returned (some e), db, [Event.query uri]⟩
  | .ok metadata => workerLoop env uri fuel (initState db uri metadata)

/-! ## Reading a run -/

/-- The cursors of the page requests of a trace, in order. -/
def requests : List Event → List String
  | [] => []
  | Event.getFeed c :: rest => c :: requests rest
  | _ :: rest => requests rest

/-- The FeedStates a trace writes (the `feed_generators` upserts), in order. -/
def writes : List Event → List FeedGeneratorMetadata
  | [] => []
  | Event.execUpsert _ m :: rest => m :: writes rest
  | _ :: rest => writes rest

/-- The stored `known_ids` of an identifier (empty when there is no row). -/
def knownIds (db : Store) (uri : String) : List String :=
  match lookupMetadata db.feed_generators uri with
  | none => []
  | some m => m.PostURIs

/-- No fault at all during a call of `savePostsToDB`. -/
def noFaults : Faults := ⟨false, false, false, fun _ => false, false⟩

/-! ## Notions used to state the properties -/

/-- The call of `savePostsToDB` that `worker` makes for a page received in state `st`. -/
def savedPage (env : Env) (uri : String) (st : LoopState) (output : FeedData) : SaveResult :=
  savePostsToDB (env.faults st.page) env.marshalPost st.db uri
    (dedup output.Feed st.metadata.PostURIs).1 ⟨(dedup output.Feed st.metadata.PostURIs).2⟩

/-- The in-memory FeedState `M` dominates what is stored and what has been written, and
everything written or stored dominates `base`. -/
def Good (base : List String) (uri : String) (M : List String) (db : Store)
    (trace : List Event) : Prop :=
  base ⊆ knownIds db uri ∧ knownIds db uri ⊆ M ∧
  (∀ m ∈ writes trace, base ⊆ m.PostURIs ∧ m.PostURIs ⊆ M) ∧
  List.Pairwise (fun a b : FeedGeneratorMetadata => a.PostURIs ⊆ b.PostURIs) (writes trace)

/-- Every cursor requested so far gave a non-empty page whose ContentIDs are all known. -/
def Seen (env : Env) (st : LoopState) : Prop :=
  ∀ c ∈ requests st.trace, ∃ output, env.getFeed 0 c = .ok output ∧ output.Feed ≠ [] ∧
    ∀ p ∈ output.Feed, p.Uri ∈ st.metadata.PostURIs

/-- The loop state after `k` complete passes that all continued, if the loop gets that far. -/
def stateAt (env : Env) (uri : String) (st : LoopState) : Nat → Option LoopState
  | 0 => some st
  | k + 1 =>
    match stateAt env uri st k with
    | none => none
    | some s =>
      match iteration env uri s with
      | .inl _ => none
      | .inr s' => some s'

/-- The cursors accepted so far: every cursor requested or about to be requested, without
the initial empty one. -/
def accepted (st : LoopState) : List String :=
  (requests st.trace ++ [st.cursor]).drop 1

/-- A call of `savePostsToDB` during which the database and the metadata encoder raise no
fault. -/
def Faults.ok (f : Faults) : Prop :=
  f.beginFails = false ∧ f.marshalMetadataFails = false ∧ f.upsertFails = false ∧
  (∀ u, f.insertFails u = false) ∧ f.commitFails = false

/-- Every load and every persist of the run succeeds. -/
def Env.allSucceed (env : Env) : Prop :=
  env.queryFails = false ∧ (∀ k, (env.faults k).ok) ∧ ∀ p, env.marshalPost p ≠ none

/-- The number of commits in a trace. -/
def commits (trace : List Event) : Nat := trace.count Event.txCommit

/-- The cursor of the request for page `k` (counted from 0) of a chain with cursors `c`. -/
def cursorAt (c : Nat → String) (k : Nat) : String :=
  if k = 0 then "" else c (k - 1)

/-- What has been persisted when the first `k` pages of a chain went through. -/
structure Persisted (db0 : Store) (uri : String) (pages : Nat → FeedData) (c : Nat → String)
    (k : Nat) (M : List String) (db : Store) (trace : List Event) : Prop where
  origin : ∀ x ∈ M, x ∈ knownIds db0 uri ∨ ∃ j, j < k ∧ ∃ q ∈ (pages j).Feed, q.Uri = x
  reqs : requests trace = (List.range k).map (cursorAt c)
  commitCount : commits trace = k
  stored : knownIds db uri = M
  covered : ∀ j, j < k → ∀ p ∈ (pages j).Feed, p.Uri ∈ M
  rows : ∀ x ∈ M, x ∈ knownIds db0 uri ∨ ∃ row ∈ db.posts, row.1 = x

/-! ## Concrete scenarios -/

/-- The feed identifier of the scenarios. -/
def feedUri : String := "at://feed/one"

/-- A store with no rows. -/
def emptyStore : Store := ⟨[], []⟩

/-- Three posts with distinct ContentIDs. -/
def post1 : Post := ⟨"u1", "post-1"⟩

def post2 : Post := ⟨"u2", "post-2"⟩

def post3 : Post := ⟨"u3", "post-3"⟩

/-- The cursors of a chain of three pages. -/
def chainCursor (k : Nat) : String := if k = 0 then "c1" else "c2"

/-- A chain of three pages: cursors `c1`, `c2`, then none. -/
def chainPages : Nat → FeedData
  | 0 => ⟨some "c1", [post1]⟩
  | 1 => ⟨some "c2", [post2]⟩
  | _ => ⟨none, [post3]⟩

/-- The server of the three-page chain, with a database that never fails. -/
def chainEnv : Env :=
  ⟨false, fun k _ => .ok (chainPages k), fun p => some p.body, fun _ => noFaults⟩

/-- The three-page chain where `json.Marshal` rejects the post of the third page. -/
def marshalFailsEnv : Env :=
  ⟨false, fun k _ => .ok (chainPages k), fun p => if p.Uri = "u3" then none else some p.body,
    fun _ => noFaults⟩

/-- The three-page chain where the commit of the first page fails. -/
def commitFailsEnv : Env :=
  ⟨false, fun k _ => .ok (chainPages k), fun p => some p.body,
    fun k => if k = 0 then ⟨false, false, false, fun _ => false, true⟩ else noFaults⟩

/-- A server whose pages alternate the cursors `A` and `B`, each page bringing a new post. -/
def oscillatingEnv : Env :=
  ⟨false,
    fun k _ => .ok ⟨some (if k % 2 = 0 then "A" else "B"),
      [if k = 0 then post1 else if k = 1 then post2 else post3]⟩,
    fun p => some p.body, fun _ => noFaults⟩

/-- A server whose first page is empty and carries a cursor. -/
def emptyFeedEnv : Env :=
  ⟨false, fun _ _ => .ok ⟨some "c1", []⟩, fun p => some p.body, fun _ => noFaults⟩

/-- A server that answers by cursor only and cycles through three cursors:
the empty cursor leads to `x`, then `y`, `z`, and `x` again. -/
def cycleEnv : Env :=
  ⟨false,
    fun _ c =>
      if c = "" then .ok ⟨some "x", [post1]⟩
      else if c = "x" then .ok ⟨some "y", [post2]⟩
      else if c = "y" then .ok ⟨some "z", [post3]⟩
      else .ok ⟨some "x", [⟨"u4", "post-4"⟩]⟩,
    fun p => some p.body, fun _ => noFaults⟩

/-- A server whose first page carries a new post and a cursor with `null` inside. -/
def nullCursorEnv : Env :=
  ⟨false, fun _ _ => .ok ⟨some "abcnullxyz", [post1]⟩, fun p => some p.body, fun _ => noFaults⟩

/-- The loop state of the three-page chain after its first page. -/
def chainState1 : LoopState :=
  ⟨"c1", ["c1"], ⟨["u1"]⟩, ⟨[(feedUri, ⟨["u1"]⟩)], [("u1", "post-1")]⟩, 1,
    [Event.query feedUri, Event.getFeed "", Event.txBegin, Event.execUpsert feedUri ⟨["u1"]⟩,
      Event.execInsert "u1" "post-1", Event.txCommit]⟩

/-! ## Deduplication -/

theorem contains_iff (l : List String) (v : String) : contains l v = true ↔ v ∈ l := by
  induction l with
  | nil => simp [contains]
  | cons a l ih =>
    by_cases h : a = v
    · simp [contains, h]
    · have h' : ¬ v = a := fun e => h e.symm
      simp [contains, h, h', ih]

theorem contains_eq_false_iff (l : List String) (v : String) : contains l v = false ↔ v ∉ l := by
  rw [← contains_iff]; cases contains l v <;> simp

theorem foldl_dedupStep (feed : List Post) (acc : List Post) (known : List String) :
    feed.foldl dedupStep (acc, known) = (acc ++ (dedup feed known).1, (dedup feed known).2) := by
  induction feed generalizing acc known with
  | nil => simp [dedup]
  | cons p ps ih =>
    unfold dedup
    simp only [List.foldl_cons]
    by_cases h : contains known p.Uri = true
    · simp only [dedupStep, h, Bool.not_true, Bool.false_eq_true, if_false]
      rw [ih]
      simp [dedup]
    · have h' : contains known p.Uri = false := by simpa using h
      simp only [dedupStep, h', Bool.not_false, if_true, List.nil_append]
      rw [ih, ih [p]]
      simp

theorem dedup_nil (known : List String) : dedup [] known = ([], known) := rfl

theorem dedup_cons (p : Post) (ps : List Post) (known : List String) :
    dedup (p :: ps) known =
      if contains known p.Uri then dedup ps known
      else (p :: (dedup ps (known ++ [p.Uri])).1, (dedup ps (known ++ [p.Uri])).2) := by
  by_cases h : contains known p.Uri = true
  · simp [dedup, dedupStep, h]
  · have h' : contains known p.Uri = false := by simpa using h
    simp only [h', Bool.false_eq_true, if_false]
    have := foldl_dedupStep ps [p] (known ++ [p.Uri])
    simp [dedup, dedupStep, h'] at this ⊢
    rw [this]

theorem dedup_snd (feed : List Post) (known : List String) :
    (dedup feed known).2 = known ++ (dedup feed known).1.map Post.Uri := by
  induction feed generalizing known with
  | nil => simp [dedup_nil]
  | cons p ps ih =>
    rw [dedup_cons]
    split
    · exact ih known
    · simp [ih (known ++ [p.Uri])]

theorem map_snd_shift (l : List (Nat × Post)) :
    (l.map (Prod.map (fun x => x + 1) id)).map Prod.snd = l.map Prod.snd := by
  simp [List.map_map, Function.comp]

theorem dedup_fst_enum (feed : List Post) (known : List String) :
    (dedup feed known).1 =
      (feed.enum.filter (fun ip =>
        !contains known ip.2.Uri && !contains ((feed.take ip.1).map Post.Uri) ip.2.Uri)).map
        Prod.snd := by
  induction feed generalizing known with
  | nil => simp [dedup_nil]
  | cons p ps ih =>
    rw [dedup_cons, List.enum_cons, ← List.map_fst_add_enum_eq_enumFrom ps 1, List.filter_cons,
      List.filter_map]
    by_cases h : contains known p.Uri = true
    · simp only [h, if_true, Bool.not_true, Bool.false_and, Bool.false_eq_true, if_false]
      rw [ih known, map_snd_shift]
      have hk : p.Uri ∈ known := (contains_iff _ _).1 h
      congr 1
      apply List.filter_congr
      intro x _
      simp only [Function.comp, Prod.map, id, List.take_succ_cons, List.map_cons]
      rw [Bool.eq_iff_iff]
      simp only [Bool.and_eq_true, Bool.not_eq_true', contains_eq_false_iff,
        List.mem_cons]
      constructor
      · rintro ⟨h1, h2⟩
        refine ⟨h1, ?_⟩
        rintro (h3 | h3)
        · exact h1 (h3 ▸ hk)
        · exact h2 h3
      · rintro ⟨h1, h2⟩
        exact ⟨h1, fun h3 => h2 (Or.inr h3)⟩
    · have h' : contains known p.Uri = false := by simpa using h
      simp only [h', Bool.false_eq_true, if_false, Bool.not_false, Bool.true_and, List.take_zero,
        List.map_nil, contains, if_true, List.map_cons]
      rw [ih (known ++ [p.Uri]), map_snd_shift]
      congr 2
      apply List.filter_congr
      intro x _
      simp only [Function.comp, Prod.map, id, List.take_succ_cons, List.map_cons]
      rw [Bool.eq_iff_iff]
      simp only [Bool.and_eq_true, Bool.not_eq_true', contains_eq_false_iff,
        List.mem_append, List.mem_cons, List.mem_singleton, List.not_mem_nil]
      tauto

/-! ## savePostsToDB -/

theorem requests_append (a b : List Event) : requests (a ++ b) = requests a ++ requests b := by
  induction a with
  | nil => rfl
  | cons e a ih => cases e <;> simp [requests, ih]

theorem writes_append (a b : List Event) : writes (a ++ b) = writes a ++ writes b := by
  induction a with
  | nil => rfl
  | cons e a ih => cases e <;> simp [writes, ih]

theorem insertLoop_err (f : Faults) (mp : Post → Option String) (o : Option String)
    (posts : List Post) (tx : Tx) (ev : List Event) :
    (insertLoop f mp o posts tx ev).err = o := by
  induction posts generalizing tx ev with
  | nil => rfl
  | cons p ps ih =>
    simp only [insertLoop]
    split
    · rfl
    · split
      · rfl
      · exact ih _ _

theorem insertLoop_events (f : Faults) (mp : Post → Option String) (o : Option String)
    (posts : List Post) (tx : Tx) (ev : List Event) :
    requests (insertLoop f mp o posts tx ev).events = requests ev ∧
    writes (insertLoop f mp o posts tx ev).events = writes ev := by
  induction posts generalizing tx ev with
  | nil => exact ⟨rfl, rfl⟩
  | cons p ps ih =>
    simp only [insertLoop]
    split
    · exact ⟨rfl, rfl⟩
    · split
      · simp [requests_append, writes_append, requests, writes]
      · have := ih { tx with work := { tx.work with posts := insertPost tx.work.posts p.Uri ‹String› } }
          (ev ++ [Event.execInsert p.Uri ‹String›])
        simpa [requests_append, writes_append, requests, writes] using this

theorem insertLoop_feed_generators (f : Faults) (mp : Post → Option String) (o : Option String)
    (posts : List Post) (tx : Tx) (ev : List Event) :
    (insertLoop f mp o posts tx ev).tx.work.feed_generators = tx.work.feed_generators := by
  induction posts generalizing tx ev with
  | nil => rfl
  | cons p ps ih =>
    simp only [insertLoop]
    split
    · rfl
    · split
      · rfl
      · rw [ih]

theorem insertPost_mono (posts : List (String × String)) (uri data : String) :
    ∀ row ∈ posts, row ∈ insertPost posts uri data := by
  intro row h
  unfold insertPost
  split
  · exact h
  · exact List.mem_append_left _ h

theorem insertLoop_posts_mono (f : Faults) (mp : Post → Option String) (o : Option String)
    (posts : List Post) (tx : Tx) (ev : List Event) :
    ∀ row ∈ tx.work.posts, row ∈ (insertLoop f mp o posts tx ev).tx.work.posts := by
  induction posts generalizing tx ev with
  | nil => intro row h; exact h
  | cons p ps ih =>
    intro row h
    simp only [insertLoop]
    split
    · exact h
    · split
      · exact h
      · apply ih
        exact insertPost_mono _ _ _ _ h

/-- The store after `savePostsToDB` is the old one, or the old one with the FeedState
upserted and posts added. -/
theorem savePostsToDB_db (f : Faults) (mp : Post → Option String) (db : Store) (aturi : String)
    (newPosts : List Post) (m : FeedGeneratorMetadata) :
    (savePostsToDB f mp db aturi newPosts m).db = db ∨
    ((savePostsToDB f mp db aturi newPosts m).db.feed_generators =
        upsertMetadata db.feed_generators aturi m ∧
      ∀ row ∈ db.posts, row ∈ (savePostsToDB f mp db aturi newPosts m).db.posts) := by
  unfold savePostsToDB
  split
  · exact Or.inl rfl
  · simp only
    split
    · exact Or.inl rfl
    · rename_i herr
      unfold commitTx
      split
      · exact Or.inl rfl
      · right
        unfold saveBody at herr ⊢
        simp only at herr ⊢
        split at herr
        · simp at herr
        · split at herr
          · simp at herr
          · rename_i h1 h2
            simp only [h1, h2, Bool.false_eq_true, if_false]
            exact ⟨insertLoop_feed_generators _ _ _ _ _ _,
              insertLoop_posts_mono f mp none newPosts
                ⟨⟨upsertMetadata db.feed_generators aturi m, db.posts⟩, false⟩ _⟩

theorem savePostsToDB_requests (f : Faults) (mp : Post → Option String) (db : Store)
    (aturi : String) (newPosts : List Post) (m : FeedGeneratorMetadata) :
    requests (savePostsToDB f mp db aturi newPosts m).events = [] := by
  unfold savePostsToDB
  split
  · rfl
  · simp only
    have key : requests (saveBody f mp db aturi newPosts m).events = [] := by
      unfold saveBody
      simp only
      split
      · rfl
      · split
        · rfl
        · rw [(insertLoop_events _ _ _ _ _ _).1]; rfl
    split <;> simp [requests_append, key, requests]

theorem savePostsToDB_writes (f : Faults) (mp : Post → Option String) (db : Store)
    (aturi : String) (newPosts : List Post) (m : FeedGeneratorMetadata) :
    writes (savePostsToDB f mp db aturi newPosts m).events = [] ∨
    writes (savePostsToDB f mp db aturi newPosts m).events = [m] := by
  unfold savePostsToDB
  split
  · exact Or.inl rfl
  · simp only
    have key : writes (saveBody f mp db aturi newPosts m).events = [] ∨
        writes (saveBody f mp db aturi newPosts m).events = [m] := by
      unfold saveBody
      simp only
      split
      · exact Or.inl rfl
      · split
        · exact Or.inr rfl
        · rw [(insertLoop_events _ _ _ _ _ _).2]; exact Or.inr rfl
    split <;> simpa [writes_append, writes] using key

/-! ## One pass of the loop -/

theorem iteration_inr {env : Env} {uri : String} {st st' : LoopState}
    (h : iteration env uri st = .inr st') :
    ∃ output c, env.getFeed st.page st.cursor = .ok output ∧ output.Cursor = some c ∧
      output.Feed ≠ [] ∧ (dedup output.Feed st.metadata.PostURIs).1 ≠ [] ∧
      (savedPage env uri st output).ret = none ∧
      containsNull c = false ∧ contains st.prevCursors c = false ∧
      st' = ⟨c, (if (st.prevCursors ++ [c]).length > 2 then (st.prevCursors ++ [c]).drop 1
                  else st.prevCursors ++ [c]),
             ⟨(dedup output.Feed st.metadata.PostURIs).2⟩, (savedPage env uri st output).db,
             st.page + 1, st.trace ++ [Event.getFeed st.cursor] ++ (savedPage env uri st output).events⟩ := by
  unfold iteration at h
  simp only at h
  split at h
  · simp at h
  · rename_i output hget
    split at h
    · simp at h
    · rename_i h1
      split at h
      · simp at h
      · rename_i h2
        split at h
        · simp at h
        · rename_i hret
          split at h
          · simp at h
          · rename_i cursor prevCursors hadv
            unfold advance at hadv
            split at hadv
            · simp at hadv
            · rename_i c hc
              split at hadv
              · simp at hadv
              · rename_i hnull
                split at hadv
                · simp at hadv
                · rename_i hprev
                  simp only [Option.some.injEq, Prod.mk.injEq] at hadv
                  obtain ⟨rfl, rfl⟩ := hadv
                  have hfeed : output.Feed ≠ [] := by
                    intro he
                    apply h1
                    simp [he, hc]
                  have hnew : (dedup output.Feed st.metadata.PostURIs).1 ≠ [] := by
                    intro he
                    apply h2
                    simp [he, List.length_pos, hfeed]
                  refine ⟨output, c, hget, hc, hfeed, hnew, hret, by simpa using hnull,
                    by simpa using hprev, ?_⟩
                  simp only [Sum.inr.injEq] at h
                  rw [← h]
                  rfl

theorem iteration_inl {env : Env} {uri : String} {st : LoopState} {run : Run}
    (h : iteration env uri st = .inl run) :
    (run.db = st.db ∧ run.trace = st.trace ++ [Event.getFeed st.cursor]) ∨
    (∃ output, env.getFeed st.page st.cursor = .ok output ∧
      run.db = (savedPage env uri st output).db ∧
      run.trace = st.trace ++ [Event.getFeed st.cursor] ++ (savedPage env uri st output).events) := by
  unfold iteration at h
  simp only at h
  split at h
  · simp only [Sum.inl.injEq] at h; subst h; exact Or.inl ⟨rfl, rfl⟩
  · rename_i output hget
    split at h
    · simp only [Sum.inl.injEq] at h; subst h; exact Or.inl ⟨rfl, rfl⟩
    · split at h
      · simp only [Sum.inl.injEq] at h; subst h; exact Or.inl ⟨rfl, rfl⟩
      · split at h
        · simp only [Sum.inl.injEq] at h; subst h; exact Or.inr ⟨output, hget, rfl, rfl⟩
        · split at h
          · simp only [Sum.inl.injEq] at h; subst h; exact Or.inr ⟨output, hget, rfl, rfl⟩
          · simp at h

/-! ## Monotonicity of the stored FeedState -/

theorem lookup_upsert (l : List (String × FeedGeneratorMetadata)) (k : String)
    (m : FeedGeneratorMetadata) : lookupMetadata (upsertMetadata l k m) k = some m := by
  induction l with
  | nil => simp [upsertMetadata, lookupMetadata]
  | cons a l ih =>
    obtain ⟨k', v⟩ := a
    by_cases h : k' = k
    · simp [upsertMetadata, lookupMetadata, h]
    · simp [upsertMetadata, lookupMetadata, h, ih]

theorem upsert_of_lookup (l : List (String × FeedGeneratorMetadata)) (k : String)
    (m : FeedGeneratorMetadata) (h : lookupMetadata l k = some m) : upsertMetadata l k m = l := by
  induction l with
  | nil => simp [lookupMetadata] at h
  | cons a l ih =>
    obtain ⟨k', v⟩ := a
    by_cases hk : k' = k
    · simp only [lookupMetadata, hk, if_true, Option.some.injEq] at h
      simp [upsertMetadata, hk, h]
    · simp only [lookupMetadata, hk, if_false] at h
      simp [upsertMetadata, hk, ih h]

theorem dedup_snd_superset (feed : List Post) (known : List String) :
    known ⊆ (dedup feed known).2 := by
  rw [dedup_snd]; exact List.subset_append_left _ _

theorem good_fetch {base : List String} {uri : String} {M : List String} {db : Store}
    {trace : List Event} (h : Good base uri M db trace) (c : String) :
    Good base uri M db (trace ++ [Event.getFeed c]) := by
  unfold Good at h ⊢
  simpa [writes_append, writes] using h

theorem good_saved {base : List String} {uri : String} {st : LoopState}
    (h : Good base uri st.metadata.PostURIs st.db st.trace) (env : Env) (output : FeedData) :
    Good base uri (dedup output.Feed st.metadata.PostURIs).2 (savedPage env uri st output).db
      (st.trace ++ [Event.getFeed st.cursor] ++ (savedPage env uri st output).events) := by
  obtain ⟨ha, hb, hc, hd⟩ := h
  have hsup := dedup_snd_superset output.Feed st.metadata.PostURIs
  have hbase : base ⊆ (dedup output.Feed st.metadata.PostURIs).2 :=
    fun x hx => hsup (hb (ha hx))
  have hk : knownIds (savedPage env uri st output).db uri = knownIds st.db uri ∨
      knownIds (savedPage env uri st output).db uri = (dedup output.Feed st.metadata.PostURIs).2 := by
    rcases savePostsToDB_db (env.faults st.page) env.marshalPost st.db uri
      (dedup output.Feed st.metadata.PostURIs).1 ⟨(dedup output.Feed st.metadata.PostURIs).2⟩
      with h1 | ⟨h1, _⟩
    · left; unfold savedPage; rw [h1]
    · right; unfold savedPage knownIds; rw [h1, lookup_upsert]
  have hw := savePostsToDB_writes (env.faults st.page) env.marshalPost st.db uri
      (dedup output.Feed st.metadata.PostURIs).1 ⟨(dedup output.Feed st.metadata.PostURIs).2⟩
  refine ⟨?_, ?_, ?_, ?_⟩
  · rcases hk with hk | hk <;> rw [hk]
    · exact ha
    · exact hbase
  · rcases hk with hk | hk <;> rw [hk]
    · exact fun x hx => hsup (hb hx)
    · exact fun x hx => hx
  · intro m hm
    rw [writes_append, writes_append] at hm
    simp only [writes, List.append_nil, List.mem_append] at hm
    rcases hm with hm | hm
    · exact ⟨(hc m hm).1, fun x hx => hsup ((hc m hm).2 hx)⟩
    · unfold savedPage at hm
      rcases hw with hw | hw <;> rw [hw] at hm
      · simp at hm
      · simp only [List.mem_singleton] at hm
        subst hm
        exact ⟨hbase, fun x hx => hx⟩
  · rw [writes_append, writes_append]
    simp only [writes, List.append_nil]
    rw [List.pairwise_append]
    refine ⟨hd, ?_, ?_⟩
    · unfold savedPage
      rcases hw with hw | hw <;> rw [hw] <;> simp
    · intro a ha' b hb'
      unfold savedPage at hb'
      rcases hw with hw | hw <;> rw [hw] at hb'
      · simp at hb'
      · simp only [List.mem_singleton] at hb'
        subst hb'
        exact fun x hx => hsup ((hc a ha').2 hx)

theorem workerLoop_good (env : Env) (uri : String) (base : List String) (fuel : Nat)
    (st : LoopState) (h : Good base uri st.metadata.PostURIs st.db st.trace) :
    ∃ M, Good base uri M (workerLoop env uri fuel st).db (workerLoop env uri fuel st).trace := by
  induction fuel generalizing st with
  | zero => exact ⟨_, h⟩
  | succ fuel ih =>
    unfold workerLoop
    cases hit : iteration env uri st with
    | inl run =>
      simp only
      rcases iteration_inl hit with ⟨h1, h2⟩ | ⟨output, _, h1, h2⟩
      · rw [h1, h2]; exact ⟨_, good_fetch h _⟩
      · rw [h1, h2]; exact ⟨_, good_saved h env output⟩
    | inr st' =>
      simp only
      obtain ⟨output, c, _, _, _, _, _, _, _, rfl⟩ := iteration_inr hit
      exact ih _ (good_saved h env output)

/-! ## Requests of a run; oscillating cursors -/

theorem requests_inl {env : Env} {uri : String} {st : LoopState} {run : Run}
    (h : iteration env uri st = .inl run) :
    requests run.trace = requests st.trace ++ [st.cursor] := by
  rcases iteration_inl h with ⟨_, h2⟩ | ⟨output, _, _, h2⟩
  · rw [h2, requests_append]; rfl
  · rw [h2, requests_append, requests_append]
    unfold savedPage
    rw [savePostsToDB_requests]; simp [requests]

theorem requests_inr {env : Env} {uri : String} {st st' : LoopState}
    (h : iteration env uri st = .inr st') :
    requests st'.trace = requests st.trace ++ [st.cursor] := by
  obtain ⟨output, c, _, _, _, _, _, _, _, rfl⟩ := iteration_inr h
  simp only [requests_append]
  unfold savedPage
  rw [savePostsToDB_requests]; simp [requests]

theorem outcome_inl {env : Env} {uri : String} {st : LoopState} {run : Run}
    (h : iteration env uri st = .inl run) : ∃ e, run.outcome = .returned e := by
  unfold iteration at h
  simp only at h
  repeat' split at h
  all_goals first
    | (simp only [Sum.inl.injEq] at h; subst h; exact ⟨_, rfl⟩)
    | simp at h

theorem contains_self_cons (a : String) (l : List String) : contains (a :: l) a = true := by
  simp [contains]

/-- Claim C4: when the successive pages return the cursors `a`, `b`, `a`, `b`, ... then,
whatever the pages hold, whatever is stored and whatever fails, `worker` makes at most three
page requests, and with fuel for three passes it returns: the second occurrence of `a` is
found in the window and ends the loop. -/
theorem worker_two_cycle_stops (env : Env) (db : Store) (uri a b : String)
    (hosc : ∀ k cur output, env.getFeed k cur = .ok output →
      output.Cursor = some (if k % 2 = 0 then a else b)) (fuel : Nat) :
    (requests (worker env db uri fuel).trace).length ≤ 3 ∧
    (3 ≤ fuel → ∃ e, (worker env db uri fuel).outcome = .returned e) := by
  unfold worker
  cases fetchMetadata env.queryFails db uri with
  | error e => exact ⟨by simp [requests], fun _ => ⟨_, rfl⟩⟩
  | ok metadata =>
    simp only
    -- first pass
    cases fuel with
    | zero => exact ⟨by simp [workerLoop, initState, requests], by omega⟩
    | succ fuel =>
      unfold workerLoop
      cases h0 : iteration env uri (initState db uri metadata) with
      | inl run =>
        simp only
        exact ⟨by rw [requests_inl h0]; simp [initState, requests], fun _ => outcome_inl h0⟩
      | inr st1 =>
        simp only
        obtain ⟨o0, c0, hg0, hc0, -, -, -, -, -, hst1⟩ := iteration_inr h0
        have hr1 := requests_inr h0
        have hca : c0 = a := by
          have := hosc _ _ _ hg0
          rw [hc0] at this
          simpa [initState] using this
        subst hca
        -- second pass
        cases fuel with
        | zero => exact ⟨by simp [workerLoop, hr1, initState, requests], by omega⟩
        | succ fuel =>
          unfold workerLoop
          cases h1 : iteration env uri st1 with
          | inl run =>
            simp only
            exact ⟨by rw [requests_inl h1, hr1]; simp [initState, requests],
              fun _ => outcome_inl h1⟩
          | inr st2 =>
            simp only
            obtain ⟨o1, c1, hg1, hc1, -, -, -, -, hp1, hst2⟩ := iteration_inr h1
            have hr2 := requests_inr h1
            have hcb : c1 = b := by
              have := hosc _ _ _ hg1
              rw [hc1] at this
              simpa [hst1, initState] using this
            subst hcb
            cases fuel with
            | zero => exact ⟨by simp [workerLoop, hr2, hr1, initState, requests], by omega⟩
            | succ fuel =>
              unfold workerLoop
              cases h2 : iteration env uri st2 with
              | inl run =>
                simp only
                exact ⟨by rw [requests_inl h2, hr2, hr1]; simp [initState, requests],
                  fun _ => outcome_inl h2⟩
              | inr st3 =>
                exfalso
                obtain ⟨o2, c2, hg2, hc2, -, -, -, -, hp2, -⟩ := iteration_inr h2
                have hca : c2 = c0 := by
                  have := hosc _ _ _ hg2
                  rw [hc2] at this
                  simpa [hst2, hst1, initState] using this
                subst hca
                rw [hst2] at hp2
                simp only [hst1, initState, List.nil_append, List.length_singleton,
                  List.length_cons, List.length_nil] at hp2
                simp [contains] at hp2

/-! ## Servers that answer by cursor -/

theorem dedup_all_known (feed : List Post) (known : List String)
    (h : ∀ p ∈ feed, p.Uri ∈ known) : dedup feed known = ([], known) := by
  induction feed with
  | nil => rfl
  | cons p ps ih =>
    rw [dedup_cons]
    have hp : contains known p.Uri = true := (contains_iff _ _).2 (h p (List.mem_cons_self _ _))
    simp only [hp, if_true]
    exact ih (fun q hq => h q (List.mem_cons_of_mem _ hq))

theorem dedup_covers (feed : List Post) (known : List String) :
    ∀ p ∈ feed, p.Uri ∈ (dedup feed known).2 := by
  induction feed generalizing known with
  | nil => intro p hp; simp at hp
  | cons q qs ih =>
    intro p hp
    rw [dedup_cons]
    rcases List.mem_cons.1 hp with rfl | hp
    · by_cases hq : contains known p.Uri = true
      · simp only [hq, if_true]
        exact dedup_snd_superset _ _ ((contains_iff _ _).1 hq)
      · simp only [hq, if_false]
        exact dedup_snd_superset _ _ (by simp)
    · split
      · exact ih known p hp
      · exact ih _ p hp

theorem iteration_repeat {env : Env} {uri : String} {st : LoopState}
    (hcur : ∀ k c, env.getFeed k c = env.getFeed 0 c) (hseen : Seen env st)
    (hrep : st.cursor ∈ requests st.trace) :
    iteration env uri st = .inl ⟨.returned none, st.db, st.trace ++ [Event.getFeed st.cursor]⟩ := by
  obtain ⟨output, hget, hne, hall⟩ := hseen _ hrep
  rw [← hcur st.page] at hget
  unfold iteration
  simp only [hget, dedup_all_known _ _ hall]
  have h1 : ¬ (output.Feed.length = 0 ∧ output.Cursor ≠ none) := by
    rintro ⟨h, _⟩
    exact hne (List.length_eq_zero.1 h)
  have h2 : output.Feed.length > 0 := List.length_pos.2 hne
  simp [h1, h2]

theorem seen_step {env : Env} {uri : String} {st st' : LoopState}
    (hcur : ∀ k c, env.getFeed k c = env.getFeed 0 c) (hseen : Seen env st)
    (h : iteration env uri st = .inr st') : Seen env st' := by
  have hr := requests_inr h
  obtain ⟨output, c, hget, _, hne, _, _, _, _, rfl⟩ := iteration_inr h
  intro x hx
  rw [hr] at hx
  rcases List.mem_append.1 hx with hx | hx
  · obtain ⟨o, h1, h2, h3⟩ := hseen x hx
    exact ⟨o, h1, h2, fun p hp => dedup_snd_superset _ _ (h3 p hp)⟩
  · simp only [List.mem_singleton] at hx
    subst hx
    rw [hcur] at hget
    exact ⟨output, hget, hne, fun p hp => dedup_covers _ _ p hp⟩

theorem workerLoop_norepeat (env : Env) (uri : String)
    (hcur : ∀ k c, env.getFeed k c = env.getFeed 0 c) (fuel : Nat) (st : LoopState)
    (hnd : (requests st.trace).Nodup) (hseen : Seen env st) :
    (requests (workerLoop env uri fuel st).trace).Nodup ∨
    ∃ L x, L.Nodup ∧ requests (workerLoop env uri fuel st).trace = L ++ [x] ∧
      (workerLoop env uri fuel st).outcome = .returned none ∧
      (workerLoop env uri fuel st).trace.getLast? = some (Event.getFeed x) := by
  induction fuel generalizing st with
  | zero => exact Or.inl hnd
  | succ fuel ih =>
    unfold workerLoop
    by_cases hrep : st.cursor ∈ requests st.trace
    · rw [iteration_repeat hcur hseen hrep]
      right
      exact ⟨requests st.trace, st.cursor, hnd, by simp [requests_append, requests], rfl,
        by simp⟩
    · have hnd' : (requests st.trace ++ [st.cursor]).Nodup := by
        rw [List.nodup_append]
        exact ⟨hnd, List.nodup_singleton _, by
          intro a ha hb
          simp only [List.mem_singleton] at hb
          exact hrep (hb ▸ ha)⟩
      cases hit : iteration env uri st with
      | inl run =>
        left
        simp only
        rw [requests_inl hit]
        exact hnd'
      | inr st' =>
        simp only
        apply ih
        · rw [requests_inr hit]; exact hnd'
        · exact seen_step hcur hseen hit

theorem nodup_no_repeat {L : List String} (hnd : L.Nodup) {pre post : List String} {c : String}
    (h : L = pre ++ c :: post) (hc : c ∈ pre) : False := by
  subst h
  rw [List.nodup_append] at hnd
  exact hnd.2.2 hc (List.mem_cons_self _ _)

theorem snoc_repeat {L : List String} (hnd : L.Nodup) {x : String} {pre post : List String}
    {c : String} (h : L ++ [x] = pre ++ c :: post) (hc : c ∈ pre) : post = [] ∧ c = x := by
  rcases List.eq_nil_or_concat post with rfl | ⟨post', y, rfl⟩
  · have h' : L ++ [x] = pre ++ [c] := h
    have := List.append_inj' h' rfl
    exact ⟨rfl, by simpa using this.2.symm⟩
  · exfalso
    have h' : L ++ [x] = (pre ++ c :: post') ++ [y] := by simpa using h
    have := (List.append_inj' h' rfl).1
    exact nodup_no_repeat hnd this hc

/-- Claim C10: when the answer of the server depends on the request cursor only, a request
made with a cursor already requested earlier in the run is the last call of the run: the page
brings nothing new, `worker` returns nil and no database call follows; so no cursor is
requested more than twice. -/
theorem worker_repeated_cursor_stops (env : Env) (db : Store) (uri : String) (fuel : Nat)
    (hcur : ∀ k c, env.getFeed k c = env.getFeed 0 c) :
    (∀ pre post c, requests (worker env db uri fuel).trace = pre ++ c :: post → c ∈ pre →
      post = [] ∧ (worker env db uri fuel).outcome = .returned none ∧
      (worker env db uri fuel).trace.getLast? = some (Event.getFeed c)) ∧
    ∀ c, (requests (worker env db uri fuel).trace).count c ≤ 2 := by
  have key : (requests (worker env db uri fuel).trace).Nodup ∨
      ∃ L x, L.Nodup ∧ requests (worker env db uri fuel).trace = L ++ [x] ∧
        (worker env db uri fuel).outcome = .returned none ∧
        (worker env db uri fuel).trace.getLast? = some (Event.getFeed x) := by
    unfold worker
    cases fetchMetadata env.queryFails db uri with
    | error e => left; simp [requests]
    | ok metadata =>
      simp only
      apply workerLoop_norepeat env uri hcur
      · simp [initState, requests]
      · intro c hc
        simp [initState, requests] at hc
  constructor
  · intro pre post c hdec hc
    rcases key with hnd | ⟨L, x, hnd, hL, hout, hlast⟩
    · exact (nodup_no_repeat hnd hdec hc).elim
    · rw [hL] at hdec
      obtain ⟨rfl, rfl⟩ := snoc_repeat hnd hdec hc
      exact ⟨rfl, hout, hlast⟩
  · intro c
    rcases key with hnd | ⟨L, x, hnd, hL, -, -⟩
    · have := List.nodup_iff_count_le_one.1 hnd c
      omega
    · rw [hL, List.count_append]
      have h1 := List.nodup_iff_count_le_one.1 hnd c
      have h2 : List.count c [x] ≤ 1 := by
        have := List.count_le_length c [x]
        simpa using this
      omega

/-! ## The cursor window -/

theorem window_push (l : List String) (c : String) :
    (if (l.drop (l.length - 2) ++ [c]).length > 2 then (l.drop (l.length - 2) ++ [c]).drop 1
      else l.drop (l.length - 2) ++ [c]) =
    (l ++ [c]).drop ((l ++ [c]).length - 2) := by
  by_cases h : l.length ≤ 1
  · have h0 : l.length - 2 = 0 := by omega
    have h1 : (l ++ [c]).length - 2 = 0 := by simp; omega
    rw [h0, h1]
    simp only [List.drop_zero, List.length_append, List.length_singleton]
    rw [if_neg (by omega)]
  · have hlen : (l.drop (l.length - 2) ++ [c]).length > 2 := by
      simp only [List.length_append, List.length_drop, List.length_singleton]; omega
    rw [if_pos hlen]
    have h1 : (l ++ [c]).length - 2 = l.length - 1 := by simp
    have h2 : l.length - 1 ≤ l.length := by omega
    have h3 : 1 ≤ (l.drop (l.length - 2)).length := by
      simp only [List.length_drop]; omega
    rw [h1, List.drop_append_of_le_length h2, List.drop_append_of_le_length h3, List.drop_drop]
    congr 2
    omega

theorem stringsContains_iff (s substr : List Char) :
    stringsContains s substr = true ↔ ∃ pre post, s = pre ++ substr ++ post := by
  induction s with
  | nil =>
    simp only [stringsContains, List.isEmpty_iff]
    constructor
    · rintro rfl; exact ⟨[], [], rfl⟩
    · rintro ⟨pre, post, h⟩
      have h' := congrArg List.length h
      simp only [List.length_nil, List.length_append] at h'
      exact List.length_eq_zero.1 (by omega)
  | cons c s ih =>
    simp only [stringsContains, Bool.or_eq_true, ih, List.isPrefixOf_iff_prefix]
    constructor
    · rintro (⟨t, ht⟩ | ⟨pre, post, h⟩)
      · exact ⟨[], t, by simpa using ht.symm⟩
      · exact ⟨c :: pre, post, by rw [h]; simp⟩
    · rintro ⟨pre, post, h⟩
      cases pre with
      | nil => left; exact ⟨post, by simpa using h.symm⟩
      | cons d pre =>
        right
        simp only [List.cons_append, List.cons.injEq] at h
        exact ⟨pre, post, h.2⟩

/-- `containsNull` holds exactly of the cursors that have `null` as a substring. -/
theorem containsNull_iff (cursor : String) :
    containsNull cursor = true ↔ ∃ pre post : String, cursor = pre ++ "null" ++ post := by
  unfold containsNull
  rw [stringsContains_iff]
  constructor
  · rintro ⟨pre, post, h⟩
    refine ⟨⟨pre⟩, ⟨post⟩, ?_⟩
    apply String.ext
    simpa [String.data_append] using h
  · rintro ⟨pre, post, h⟩
    exact ⟨pre.data, post.data, by rw [h]; simp [String.data_append]⟩

theorem advance_eq_none (w : List String) (oc : Option String) :
    advance w oc = none ↔
      (oc = none ∨ ∃ c, oc = some c ∧
        ((∃ pre post : String, c = pre ++ "null" ++ post) ∨ c ∈ w)) := by
  unfold advance
  cases oc with
  | none => simp
  | some c =>
    simp only [Option.some.injEq, exists_eq_left', false_or, reduceCtorEq]
    rw [← containsNull_iff]
    by_cases h1 : containsNull c = true
    · simp [h1]
    · by_cases h2 : contains w c = true
      · simp [h1, h2, (contains_iff _ _).1 h2]
      · have h3 : c ∉ w := fun h => h2 ((contains_iff _ _).2 h)
        simp [h1, h2, h3]

theorem advance_some {w : List String} {oc : Option String} {c : String} {w' : List String}
    (h : advance w oc = some (c, w')) :
    oc = some c ∧ w' = (if (w ++ [c]).length > 2 then (w ++ [c]).drop 1 else w ++ [c]) := by
  unfold advance at h
  cases oc with
  | none => simp at h
  | some d =>
    simp only at h
    split at h
    · simp at h
    · split at h
      · simp at h
      · simp only [Option.some.injEq, Prod.mk.injEq] at h
        obtain ⟨rfl, rfl⟩ := h
        exact ⟨rfl, rfl⟩

theorem iteration_persisted (env : Env) (uri : String) (st : LoopState) {output : FeedData}
    (hget : env.getFeed st.page st.cursor = .ok output)
    (h1 : ¬ (output.Feed = [] ∧ output.Cursor ≠ none))
    (h2 : ¬ ((dedup output.Feed st.metadata.PostURIs).1 = [] ∧ output.Feed ≠ []))
    (hret : (savedPage env uri st output).ret = none) :
    iteration env uri st =
      match advance st.prevCursors output.Cursor with
      | none => .inl ⟨.returned none, (savedPage env uri st output).db,
          st.trace ++ [Event.getFeed st.cursor] ++ (savedPage env uri st output).events⟩
      | some (cursor, prevCursors) =>
        .inr ⟨cursor, prevCursors, ⟨(dedup output.Feed st.metadata.PostURIs).2⟩,
          (savedPage env uri st output).db, st.page + 1,
          st.trace ++ [Event.getFeed st.cursor] ++ (savedPage env uri st output).events⟩ := by
  unfold iteration
  unfold savedPage at hret
  simp only [hget]
  rw [if_neg (by rw [List.length_eq_zero]; exact h1),
    if_neg (by simpa only [List.length_eq_zero, gt_iff_lt, List.length_pos] using h2)]
  simp only [hret, savedPage]

theorem window_inv (env : Env) (uri : String) (st0 : LoopState)
    (h0 : st0.prevCursors = (accepted st0).drop ((accepted st0).length - 2)) (k : Nat)
    (st : LoopState) (hreach : stateAt env uri st0 k = some st) :
    st.prevCursors = (accepted st).drop ((accepted st).length - 2) := by
  induction k generalizing st with
  | zero =>
    simp only [stateAt, Option.some.injEq] at hreach
    subst hreach; exact h0
  | succ k ih =>
    simp only [stateAt] at hreach
    split at hreach
    · simp at hreach
    · rename_i s hs
      split at hreach
      · simp at hreach
      · rename_i s' hit
        simp only [Option.some.injEq] at hreach
        subst hreach
        have hw := ih s hs
        have hr := requests_inr hit
        obtain ⟨output, c, _, _, _, _, _, _, _, hst⟩ := iteration_inr hit
        have hacc : accepted s' = accepted s ++ [c] := by
          unfold accepted
          rw [hr]
          have : s'.cursor = c := by rw [hst]
          rw [this, List.drop_append_of_le_length (by simp)]
        rw [hacc, ← window_push, ← hw, hst]

/-! ## Cursor advance; persisting without faults -/

/-- Claim C9: in every loop state the run reaches, the window `prevCursors` is the last two
(at most) of the cursors accepted so far, oldest first; and for a page that passed the two
early exits and for which `savePostsToDB` returned nil, the loop is left exactly when the page
has no cursor, or its cursor has the string `null` as a substring (it is `pre ++ "null" ++ post`
for some strings), or its cursor is one of the cursors in the window, it is then left with a
nil error, and otherwise the next request is made with the returned cursor. -/
theorem worker_cursor_advance (env : Env) (db : Store) (uri : String) (metadata : FeedGeneratorMetadata)
    (k : Nat) (st : LoopState)
    (hreach : stateAt env uri (initState db uri metadata) k = some st) :
    (st.prevCursors = (accepted st).drop ((accepted st).length - 2) ∧
      st.prevCursors.length ≤ 2) ∧
    ∀ output, env.getFeed st.page st.cursor = .ok output →
      ¬ (output.Feed = [] ∧ output.Cursor ≠ none) →
      ¬ ((dedup output.Feed st.metadata.PostURIs).1 = [] ∧ output.Feed ≠ []) →
      (savedPage env uri st output).ret = none →
      ((∃ run, iteration env uri st = .inl run) ↔
        (output.Cursor = none ∨
          ∃ c, output.Cursor = some c ∧
            ((∃ pre post : String, c = pre ++ "null" ++ post) ∨ c ∈ st.prevCursors))) ∧
      (∀ run, iteration env uri st = .inl run → run.outcome = .returned none) ∧
      (∀ st', iteration env uri st = .inr st' →
        output.Cursor = some st'.cursor ∧ st'.page = st.page + 1) := by
  have hw := window_inv env uri (initState db uri metadata) (by simp [initState, accepted, requests])
    k st hreach
  refine ⟨⟨hw, ?_⟩, ?_⟩
  · rw [hw, List.length_drop]; omega
  · intro output hget h1 h2 hret
    have hit := iteration_persisted env uri st hget h1 h2 hret
    rw [← advance_eq_none]
    cases hadv : advance st.prevCursors output.Cursor with
    | none =>
      rw [hadv] at hit
      simp only at hit
      refine ⟨⟨fun _ => rfl, fun _ => ⟨_, hit⟩⟩, ?_, ?_⟩
      · intro run hrun
        rw [hit] at hrun
        simp only [Sum.inl.injEq] at hrun
        rw [← hrun]
      · intro st' hst'
        rw [hit] at hst'
        simp at hst'
    | some cw =>
      obtain ⟨c, w⟩ := cw
      rw [hadv] at hit
      simp only at hit
      refine ⟨⟨?_, ?_⟩, ?_, ?_⟩
      · rintro ⟨run, hrun⟩
        rw [hit] at hrun
        simp at hrun
      · intro h; simp at h
      · intro run hrun
        rw [hit] at hrun
        simp at hrun
      · intro st' hst'
        rw [hit] at hst'
        simp only [Sum.inr.injEq] at hst'
        rw [← hst']
        exact ⟨(advance_some hadv).1, rfl⟩

theorem insertLoop_ok (f : Faults) (mp : Post → Option String) (hf : ∀ u, f.insertFails u = false)
    (hmp : ∀ p, mp p ≠ none) (o : Option String) (posts : List Post) (tx : Tx)
    (ev : List Event) :
    (insertLoop f mp o posts tx ev).ret = none ∧
    (insertLoop f mp o posts tx ev).tx.aborted = tx.aborted ∧
    commits (insertLoop f mp o posts tx ev).events = commits ev ∧
    ∀ p ∈ posts, ∃ row ∈ (insertLoop f mp o posts tx ev).tx.work.posts, row.1 = p.Uri := by
  induction posts generalizing tx ev with
  | nil => exact ⟨rfl, rfl, rfl, by simp⟩
  | cons p ps ih =>
    simp only [insertLoop]
    split
    · rename_i h; exact absurd h (hmp p)
    · rename_i postData hp
      simp only [hf, Bool.false_eq_true, if_false]
      have key := ih { tx with work := { tx.work with posts := insertPost tx.work.posts p.Uri postData } }
          (ev ++ [Event.execInsert p.Uri postData])
      refine ⟨key.1, key.2.1, ?_, ?_⟩
      · rw [key.2.2.1]; simp [commits, List.count_append]
      · intro q hq
        rcases List.mem_cons.1 hq with rfl | hq
        · have hin : ∃ row ∈ insertPost tx.work.posts q.Uri postData, row.1 = q.Uri := by
            unfold insertPost
            split
            · rename_i hany
              simp only [List.any_eq_true, decide_eq_true_eq] at hany
              exact hany
            · exact ⟨(q.Uri, postData), by simp, rfl⟩
          obtain ⟨row, hrow, hk⟩ := hin
          exact ⟨row, insertLoop_posts_mono f mp o ps
            { tx with work := { tx.work with posts := insertPost tx.work.posts q.Uri postData } }
            _ row hrow, hk⟩
        · exact key.2.2.2 q hq

theorem savePostsToDB_ok (f : Faults) (mp : Post → Option String) (hf : f.ok)
    (hmp : ∀ p, mp p ≠ none) (db : Store) (aturi : String) (newPosts : List Post)
    (m : FeedGeneratorMetadata) :
    (savePostsToDB f mp db aturi newPosts m).ret = none ∧
    (savePostsToDB f mp db aturi newPosts m).db.feed_generators =
      upsertMetadata db.feed_generators aturi m ∧
    (∀ row ∈ db.posts, row ∈ (savePostsToDB f mp db aturi newPosts m).db.posts) ∧
    (∀ p ∈ newPosts, ∃ row ∈ (savePostsToDB f mp db aturi newPosts m).db.posts, row.1 = p.Uri) ∧
    commits (savePostsToDB f mp db aturi newPosts m).events = 1 := by
  obtain ⟨h1, h2, h3, h4, h5⟩ := hf
  have key := insertLoop_ok f mp h4 hmp none newPosts
    ⟨⟨upsertMetadata db.feed_generators aturi m, db.posts⟩, false⟩
    ([Event.txBegin] ++ [Event.execUpsert aturi m])
  have hmono := insertLoop_posts_mono f mp none newPosts
    ⟨⟨upsertMetadata db.feed_generators aturi m, db.posts⟩, false⟩
    ([Event.txBegin] ++ [Event.execUpsert aturi m])
  have hfg := insertLoop_feed_generators f mp none newPosts
    ⟨⟨upsertMetadata db.feed_generators aturi m, db.posts⟩, false⟩
    ([Event.txBegin] ++ [Event.execUpsert aturi m])
  have herr := insertLoop_err f mp none newPosts
    ⟨⟨upsertMetadata db.feed_generators aturi m, db.posts⟩, false⟩
    ([Event.txBegin] ++ [Event.execUpsert aturi m])
  simp only [savePostsToDB, saveBody, h1, h2, h3, h5, Bool.false_eq_true, if_false, herr,
    commitTx, key.2.1, Bool.or_self]
  refine ⟨key.1, hfg, hmono, key.2.2.2, ?_⟩
  have := key.2.2.1
  simp only [commits, List.count_append] at this ⊢
  rw [this]
  simp

/-! ## Acyclic chains -/

theorem dedup_fst_subset (feed : List Post) (known : List String) :
    ∀ p ∈ (dedup feed known).1, p ∈ feed := by
  induction feed generalizing known with
  | nil => intro p hp; simp [dedup_nil] at hp
  | cons q qs ih =>
    intro p hp
    rw [dedup_cons] at hp
    split at hp
    · exact List.mem_cons_of_mem _ (ih known p hp)
    · rcases List.mem_cons.1 hp with rfl | hp
      · exact List.mem_cons_self _ _
      · exact List.mem_cons_of_mem _ (ih _ p hp)

theorem dedup_fst_ne_nil {feed : List Post} {known : List String} {p : Post}
    (hp : p ∈ feed) (hnew : p.Uri ∉ known) : (dedup feed known).1 ≠ [] := by
  intro he
  have h := dedup_covers feed known p hp
  rw [dedup_snd, he] at h
  simp at h
  exact hnew h

/-- Part one of C3: the loop never goes past the last page of the chain. -/
theorem chain_bound (env : Env) (uri : String) (n : Nat) (pages : Nat → FeedData)
    (c : Nat → String)
    (hserve : ∀ k, k < n → env.getFeed k (cursorAt c k) = .ok (pages k))
    (hcursor : ∀ k, k < n → (pages k).Cursor = if k + 1 < n then some (c k) else none)
    (fuel : Nat) (st : LoopState) (hpage : st.page < n) (hcur : st.cursor = cursorAt c st.page)
    (hreq : (requests st.trace).length = st.page) :
    (requests (workerLoop env uri fuel st).trace).length ≤ n := by
  induction fuel generalizing st with
  | zero => simp only [workerLoop]; omega
  | succ fuel ih =>
    unfold workerLoop
    cases hit : iteration env uri st with
    | inl run =>
      simp only
      rw [requests_inl hit, List.length_append, hreq]
      simp only [List.length_singleton]; omega
    | inr st' =>
      simp only
      have hr := requests_inr hit
      obtain ⟨output, c', hget, hc', _, _, _, _, _, hst'⟩ := iteration_inr hit
      rw [hcur, hserve _ hpage] at hget
      simp only [Except.ok.injEq] at hget
      subst hget
      rw [hcursor _ hpage] at hc'
      have hlt : st.page + 1 < n := by
        by_contra hcon
        rw [if_neg hcon] at hc'
        simp at hc'
      rw [if_pos hlt] at hc'
      simp only [Option.some.injEq] at hc'
      apply ih
      · rw [hst']; exact hlt
      · rw [hst']; simp [cursorAt, hc']
      · rw [hr, List.length_append, hreq, hst']; rfl

theorem persisted_step {env : Env} {db0 : Store} {uri : String} {pages : Nat → FeedData}
    {c : Nat → String} {st : LoopState}
    (h : Persisted db0 uri pages c st.page st.metadata.PostURIs st.db st.trace)
    (hok : env.allSucceed) (hcur : st.cursor = cursorAt c st.page) :
    (savedPage env uri st (pages st.page)).ret = none ∧
    Persisted db0 uri pages c (st.page + 1)
      (dedup (pages st.page).Feed st.metadata.PostURIs).2
      (savedPage env uri st (pages st.page)).db
      (st.trace ++ [Event.getFeed st.cursor] ++ (savedPage env uri st (pages st.page)).events) := by
  obtain ⟨h1, h2, h3, h4, h5⟩ := savePostsToDB_ok (env.faults st.page) env.marshalPost
    (hok.2.1 st.page) hok.2.2 st.db uri (dedup (pages st.page).Feed st.metadata.PostURIs).1
    ⟨(dedup (pages st.page).Feed st.metadata.PostURIs).2⟩
  have hreq := savePostsToDB_requests (env.faults st.page) env.marshalPost st.db uri
    (dedup (pages st.page).Feed st.metadata.PostURIs).1
    ⟨(dedup (pages st.page).Feed st.metadata.PostURIs).2⟩
  refine ⟨h1, ?_, ?_, ?_, ?_, ?_, ?_⟩
  · intro x hx
    rw [dedup_snd] at hx
    rcases List.mem_append.1 hx with hx | hx
    · rcases h.origin x hx with h' | ⟨j, hj, q, hq, he⟩
      · exact Or.inl h'
      · exact Or.inr ⟨j, by omega, q, hq, he⟩
    · obtain ⟨q, hq, rfl⟩ := List.mem_map.1 hx
      exact Or.inr ⟨st.page, by omega, q, dedup_fst_subset _ _ q hq, rfl⟩
  · rw [requests_append, requests_append, h.reqs]
    unfold savedPage
    rw [hreq, List.range_succ, List.map_append, hcur]
    simp [requests]
  · unfold savedPage
    unfold commits at h5 ⊢
    rw [List.count_append, List.count_append, h5]
    have := h.commitCount
    unfold commits at this
    rw [this]
    simp
  · unfold savedPage knownIds
    rw [h2, lookup_upsert]
  · intro j hj p hp
    by_cases hjk : j < st.page
    · exact dedup_snd_superset _ _ (h.covered j hjk p hp)
    · have : j = st.page := by omega
      subst this
      exact dedup_covers _ _ p hp
  · intro x hx
    rw [dedup_snd] at hx
    rcases List.mem_append.1 hx with hx | hx
    · rcases h.rows x hx with h' | ⟨row, hrow, he⟩
      · exact Or.inl h'
      · exact Or.inr ⟨row, h3 row hrow, he⟩
    · obtain ⟨q, hq, rfl⟩ := List.mem_map.1 hx
      exact Or.inr (h4 q hq)

theorem chain_exact (env : Env) (db0 : Store) (uri : String) (n : Nat) (pages : Nat → FeedData)
    (c : Nat → String)
    (hserve : ∀ k, k < n → env.getFeed k (cursorAt c k) = .ok (pages k))
    (hcursor : ∀ k, k < n → (pages k).Cursor = if k + 1 < n then some (c k) else none)
    (hdistinct : ∀ i j, i < j → j + 1 < n → c i ≠ c j)
    (hnull : ∀ k, k + 1 < n → containsNull (c k) = false)
    (hnew : ∀ k, k < n → ∃ p ∈ (pages k).Feed, p.Uri ∉ knownIds db0 uri ∧
      ∀ j, j < k → ∀ q ∈ (pages j).Feed, q.Uri ≠ p.Uri)
    (hok : env.allSucceed) (m : Nat) (fuel : Nat) (st : LoopState)
    (hpage : st.page + m = n) (hm : 0 < m) (hfuel : m ≤ fuel)
    (hcur : st.cursor = cursorAt c st.page)
    (hwin : ∀ x ∈ st.prevCursors, ∃ j, j < st.page ∧ x = c j)
    (hper : Persisted db0 uri pages c st.page st.metadata.PostURIs st.db st.trace) :
    (workerLoop env uri fuel st).outcome = .returned none ∧
    ∃ M, Persisted db0 uri pages c n M (workerLoop env uri fuel st).db
      (workerLoop env uri fuel st).trace := by
  induction m generalizing fuel st with
  | zero => omega
  | succ m ih =>
    obtain ⟨fuel, rfl⟩ : ∃ f, fuel = f + 1 := ⟨fuel - 1, by omega⟩
    have hlt : st.page < n := by omega
    have hget : env.getFeed st.page st.cursor = .ok (pages st.page) := by
      rw [hcur]; exact hserve _ hlt
    obtain ⟨p, hp, hp0, hpj⟩ := hnew _ hlt
    have hpM : p.Uri ∉ st.metadata.PostURIs := by
      intro hin
      rcases hper.origin _ hin with h' | ⟨j, hj, q, hq, he⟩
      · exact hp0 h'
      · exact hpj j hj q hq he
    have h1 : ¬ ((pages st.page).Feed = [] ∧ (pages st.page).Cursor ≠ none) := by
      rintro ⟨he, _⟩
      rw [he] at hp
      simp at hp
    have h2 : ¬ ((dedup (pages st.page).Feed st.metadata.PostURIs).1 = [] ∧
        (pages st.page).Feed ≠ []) := fun h => dedup_fst_ne_nil hp hpM h.1
    obtain ⟨hret, hper'⟩ := persisted_step hper hok hcur
    have hit := iteration_persisted env uri st hget h1 h2 hret
    unfold workerLoop
    by_cases hlast : st.page + 1 < n
    · -- a further page follows
      have hc := hcursor _ hlt
      rw [if_pos hlast] at hc
      have hnot : contains st.prevCursors (c st.page) = false := by
        rw [contains_eq_false_iff]
        intro hin
        obtain ⟨j, hj, he⟩ := hwin _ hin
        exact hdistinct j st.page hj hlast he.symm
      have hadv : advance st.prevCursors (pages st.page).Cursor =
          some (c st.page, if (st.prevCursors ++ [c st.page]).length > 2
            then (st.prevCursors ++ [c st.page]).drop 1 else st.prevCursors ++ [c st.page]) := by
        rw [hc]
        simp [advance, hnull _ hlast, hnot]
      rw [hadv] at hit
      simp only at hit
      rw [hit]
      simp only
      apply ih
      · simp only; omega
      · omega
      · omega
      · simp [cursorAt]
      · intro x hx
        simp only at hx
        have hx' : x ∈ st.prevCursors ++ [c st.page] := by
          split at hx
          · exact List.mem_of_mem_drop hx
          · exact hx
        rcases List.mem_append.1 hx' with hx' | hx'
        · obtain ⟨j, hj, he⟩ := hwin x hx'
          exact ⟨j, by simp only; omega, he⟩
        · simp only [List.mem_singleton] at hx'
          exact ⟨st.page, by simp, hx'⟩
      · exact hper'
    · -- the last page of the chain
      have hn : st.page + 1 = n := by omega
      have hc := hcursor _ hlt
      rw [if_neg hlast] at hc
      have hadv : advance st.prevCursors (pages st.page).Cursor = none := by
        rw [hc]; rfl
      rw [hadv] at hit
      simp only at hit
      rw [hit]
      simp only
      rw [← hn]
      exact ⟨trivial, _, hper'⟩

/-! ## Idempotence -/

theorem fetchMetadata_ok (db : Store) (uri : String) :
    fetchMetadata false db uri = .ok ⟨knownIds db uri⟩ := by
  unfold fetchMetadata knownIds
  cases lookupMetadata db.feed_generators uri <;> rfl

theorem worker_succ (env : Env) (db : Store) (uri : String) (g : Nat)
    (hq : env.queryFails = false) :
    worker env db uri (g + 1) =
      match iteration env uri (initState db uri ⟨knownIds db uri⟩) with
      | .inl run => run
      | .inr st => workerLoop env uri g st := by
  unfold worker
  rw [hq, fetchMetadata_ok]
  rfl

theorem iteration_error (env : Env) (uri : String) (st : LoopState) {e : String}
    (hget : env.getFeed st.page st.cursor = .error e) :
    iteration env uri st =
      .inl ⟨.returned (some e), st.db, st.trace ++ [Event.getFeed st.cursor]⟩ := by
  unfold iteration
  simp only [hget]

theorem iteration_empty (env : Env) (uri : String) (st : LoopState) {output : FeedData}
    (hget : env.getFeed st.page st.cursor = .ok output) (hfeed : output.Feed = [])
    (hc : output.Cursor ≠ none) :
    iteration env uri st =
      .inl ⟨.returned none, st.db, st.trace ++ [Event.getFeed st.cursor]⟩ := by
  unfold iteration
  simp only [hget]
  rw [if_pos ⟨by rw [hfeed]; rfl, hc⟩]

theorem iteration_caught_up (env : Env) (uri : String) (st : LoopState) {output : FeedData}
    (hget : env.getFeed st.page st.cursor = .ok output) (hne : output.Feed ≠ [])
    (hall : ∀ p ∈ output.Feed, p.Uri ∈ st.metadata.PostURIs) :
    iteration env uri st =
      .inl ⟨.returned none, st.db, st.trace ++ [Event.getFeed st.cursor]⟩ := by
  unfold iteration
  simp only [hget, dedup_all_known _ _ hall]
  have h1 : ¬ (output.Feed.length = 0 ∧ output.Cursor ≠ none) := by
    rintro ⟨h, _⟩
    exact hne (List.length_eq_zero.1 h)
  have h2 : output.Feed.length > 0 := List.length_pos.2 hne
  simp [h1, h2]

theorem savePostsToDB_nil (f : Faults) (mp : Post → Option String) (hf : f.ok) (db : Store)
    (aturi : String) (m : FeedGeneratorMetadata) :
    (savePostsToDB f mp db aturi [] m).ret = none ∧
    (savePostsToDB f mp db aturi [] m).db =
      ⟨upsertMetadata db.feed_generators aturi m, db.posts⟩ := by
  obtain ⟨h1, h2, h3, _, h5⟩ := hf
  simp [savePostsToDB, saveBody, insertLoop, commitTx, h1, h2, h3, h5]

theorem worker_first_inl (env : Env) (db : Store) (uri : String) (g : Nat)
    (hq : env.queryFails = false) {run : Run}
    (h : iteration env uri (initState db uri ⟨knownIds db uri⟩) = .inl run) :
    worker env db uri (g + 1) = run := by
  rw [worker_succ env db uri g hq, h]

/-- A second run started from a store that already knows every ContentID of the first page
stops at that page and leaves the store alone. -/
theorem worker_caught_up (env : Env) (db : Store) (uri : String) (g : Nat)
    (hq : env.queryFails = false) {output : FeedData} (hget : env.getFeed 0 "" = .ok output)
    (hne : output.Feed ≠ []) (hall : ∀ p ∈ output.Feed, p.Uri ∈ knownIds db uri) :
    (worker env db uri (g + 1)).db = db ∧
    ∃ e, (worker env db uri (g + 1)).outcome = .returned e := by
  have hit : iteration env uri (initState db uri ⟨knownIds db uri⟩) = _ :=
    iteration_caught_up env uri (initState db uri ⟨knownIds db uri⟩) hget hne hall
  rw [worker_first_inl env db uri g hq hit]
  exact ⟨rfl, _, rfl⟩

theorem knownIds_of_upsert {db : Store} {l : List (String × FeedGeneratorMetadata)}
    {uri : String} {m : FeedGeneratorMetadata}
    (h : db.feed_generators = upsertMetadata l uri m) : knownIds db uri = m.PostURIs := by
  unfold knownIds
  rw [h, lookup_upsert]

theorem savedPage_knownIds (env : Env) (uri : String) (st : LoopState) (output : FeedData) :
    knownIds (savedPage env uri st output).db uri = knownIds st.db uri ∨
    knownIds (savedPage env uri st output).db uri =
      (dedup output.Feed st.metadata.PostURIs).2 := by
  rcases savePostsToDB_db (env.faults st.page) env.marshalPost st.db uri
    (dedup output.Feed st.metadata.PostURIs).1 ⟨(dedup output.Feed st.metadata.PostURIs).2⟩
    with h1 | ⟨h1, _⟩
  · left; unfold savedPage; rw [h1]
  · right; exact knownIds_of_upsert h1

theorem savedPage_ok (env : Env) (uri : String) (st : LoopState) (output : FeedData)
    (hok : env.allSucceed) :
    (savedPage env uri st output).ret = none ∧
    knownIds (savedPage env uri st output).db uri =
      (dedup output.Feed st.metadata.PostURIs).2 := by
  obtain ⟨hret, hfg, -, -, -⟩ := savePostsToDB_ok (env.faults st.page) env.marshalPost
    (hok.2.1 st.page) hok.2.2 st.db uri (dedup output.Feed st.metadata.PostURIs).1
    ⟨(dedup output.Feed st.metadata.PostURIs).2⟩
  exact ⟨hret, knownIds_of_upsert hfg⟩

/-- The stored `known_ids` never lose an element while the loop runs. -/
theorem workerLoop_known_mono (env : Env) (uri : String) (base : List String) (fuel : Nat)
    (st : LoopState) (h1 : base ⊆ knownIds st.db uri)
    (h2 : knownIds st.db uri ⊆ st.metadata.PostURIs) :
    base ⊆ knownIds (workerLoop env uri fuel st).db uri := by
  induction fuel generalizing st with
  | zero => exact h1
  | succ fuel ih =>
    have hsup : ∀ output : FeedData,
        st.metadata.PostURIs ⊆ (dedup output.Feed st.metadata.PostURIs).2 :=
      fun output => dedup_snd_superset _ _
    have hstep : ∀ output : FeedData, base ⊆ knownIds (savedPage env uri st output).db uri ∧
        knownIds (savedPage env uri st output).db uri ⊆
          (dedup output.Feed st.metadata.PostURIs).2 := by
      intro output
      rcases savedPage_knownIds env uri st output with hk | hk <;> rw [hk]
      · exact ⟨h1, fun x hx => hsup output (h2 hx)⟩
      · exact ⟨fun x hx => hsup output (h2 (h1 hx)), fun x hx => hx⟩
    unfold workerLoop
    cases hit : iteration env uri st with
    | inl run =>
      simp only
      rcases iteration_inl hit with ⟨hdb, _⟩ | ⟨output, _, hdb, _⟩
      · rw [hdb]; exact h1
      · rw [hdb]; exact (hstep output).1
    | inr st' =>
      simp only
      obtain ⟨output, c, _, _, _, _, _, _, _, rfl⟩ := iteration_inr hit
      exact ih _ (hstep output).1 (hstep output).2

/-- With every persist succeeding, a first page with new items is known to the store when
the run is over. -/
theorem worker_first_page_known (env : Env) (db : Store) (uri : String) (f : Nat)
    (hok : env.allSucceed) {output : FeedData} (hget : env.getFeed 0 "" = .ok output)
    (hfeed : output.Feed ≠ []) (hnew : (dedup output.Feed (knownIds db uri)).1 ≠ []) :
    ∀ p ∈ output.Feed, p.Uri ∈ knownIds (worker env db uri (f + 1)).db uri := by
  intro p hp
  have hcov : p.Uri ∈ (dedup output.Feed (knownIds db uri)).2 := dedup_covers _ _ p hp
  obtain ⟨hret, hks⟩ := savedPage_ok env uri (initState db uri ⟨knownIds db uri⟩) output hok
  have hit := iteration_persisted env uri (initState db uri ⟨knownIds db uri⟩) hget
    (fun h => hfeed h.1) (fun h => hnew h.1) hret
  rw [worker_succ env db uri f hok.1, hit]
  cases advance (initState db uri ⟨knownIds db uri⟩).prevCursors output.Cursor with
  | none =>
    simp only
    rw [hks]; exact hcov
  | some cw =>
    obtain ⟨c, w⟩ := cw
    simp only
    refine workerLoop_known_mono env uri _ f _ ?_ ?_ hcov
    · simp only; rw [hks]; exact fun x hx => hx
    · simp only; rw [hks]; exact fun x hx => hx

/-- With every persist succeeding, an empty first page without a cursor makes the run write
the loaded FeedState back and stop. -/
theorem worker_empty_last (env : Env) (db : Store) (uri : String) (g : Nat)
    (hok : env.allSucceed) (hget : env.getFeed 0 "" = .ok ⟨none, []⟩) :
    worker env db uri (g + 1) =
      ⟨.returned none, ⟨upsertMetadata db.feed_generators uri ⟨knownIds db uri⟩, db.posts⟩,
        [Event.query uri, Event.getFeed "", Event.txBegin,
          Event.execUpsert uri ⟨knownIds db uri⟩, Event.txCommit]⟩ := by
  obtain ⟨h1, h2, h3, _, h5⟩ := hok.2.1 0
  rw [worker_succ env db uri g hok.1]
  simp [iteration, initState, hget, dedup_nil, savePostsToDB, saveBody, insertLoop, commitTx,
    h1, h2, h3, h5, advance]

/-- Claim C5: when every load and persist succeeds and a first run of `worker` has returned,
a second run on the same identifier against the same server returns as well and leaves the
whole store (the FeedState of the identifier and the `posts` relation) as the first run
left it. -/
theorem worker_idempotent (env : Env) (db : Store) (uri : String) (fuel1 fuel2 : Nat)
    (hok : env.allSucceed) (hdone : ∃ e, (worker env db uri fuel1).outcome = .returned e)
    (hfuel2 : 0 < fuel2) :
    (worker env (worker env db uri fuel1).db uri fuel2).db = (worker env db uri fuel1).db ∧
    ∃ e, (worker env (worker env db uri fuel1).db uri fuel2).outcome = .returned e := by
  have hq := hok.1
  obtain ⟨g, rfl⟩ : ∃ g, fuel2 = g + 1 := ⟨fuel2 - 1, by omega⟩
  cases fuel1 with
  | zero =>
    exfalso
    obtain ⟨e, he⟩ := hdone
    unfold worker at he
    rw [hq, fetchMetadata_ok] at he
    simp [workerLoop] at he
  | succ f =>
    -- a first pass that leaves the store alone is repeated as it is by the second run
    have clean : ∀ e t,
        iteration env uri (initState db uri ⟨knownIds db uri⟩) = .inl ⟨.returned e, db, t⟩ →
        (worker env (worker env db uri (f + 1)).db uri (g + 1)).db =
          (worker env db uri (f + 1)).db ∧
        ∃ e, (worker env (worker env db uri (f + 1)).db uri (g + 1)).outcome = .returned e := by
      intro e t hit
      rw [worker_first_inl env db uri f hq hit]
      simp only
      rw [worker_first_inl env db uri g hq hit]
      exact ⟨rfl, e, rfl⟩
    cases hget : env.getFeed 0 "" with
    | error e =>
      exact clean _ _ (iteration_error env uri (initState db uri ⟨knownIds db uri⟩) hget)
    | ok output =>
      by_cases hfeed : output.Feed = []
      · by_cases hc : output.Cursor = none
        · -- an empty last page: the FeedState is written back unchanged
          obtain ⟨cur, feed⟩ := output
          simp only at hfeed hc
          subst hfeed hc
          rw [worker_empty_last env db uri f hok hget]
          simp only
          rw [worker_empty_last env _ uri g hok hget]
          simp only
          have hk : knownIds ⟨upsertMetadata db.feed_generators uri ⟨knownIds db uri⟩, db.posts⟩
              uri = knownIds db uri := knownIds_of_upsert rfl
          rw [hk, upsert_of_lookup _ _ _ (lookup_upsert _ _ _)]
          exact ⟨rfl, _, rfl⟩
        · exact clean _ _
            (iteration_empty env uri (initState db uri ⟨knownIds db uri⟩) hget hfeed hc)
      · by_cases hnew : (dedup output.Feed (knownIds db uri)).1 = []
        · -- nothing new on the first page
          have hall : ∀ p ∈ output.Feed, p.Uri ∈ knownIds db uri := by
            intro p hp
            have := dedup_covers output.Feed (knownIds db uri) p hp
            rw [dedup_snd, hnew] at this
            simpa using this
          exact clean _ _
            (iteration_caught_up env uri (initState db uri ⟨knownIds db uri⟩) hget hfeed hall)
        · -- the first page is persisted; the second run finds all of it known
          exact worker_caught_up env _ uri g hq hget hfeed
            (worker_first_page_known env db uri f hok hget hfeed hnew)

/-! ## Failures of savePostsToDB -/

theorem insertLoop_failure_aborts (f : Faults) (mp : Post → Option String) (o : Option String)
    (posts : List Post) (tx : Tx) (ev : List Event) (hmp : ∀ p ∈ posts, mp p ≠ none)
    (hret : (insertLoop f mp o posts tx ev).ret ≠ none) :
    (insertLoop f mp o posts tx ev).tx.aborted = true := by
  induction posts generalizing tx ev with
  | nil => simp [insertLoop] at hret
  | cons p ps ih =>
    simp only [insertLoop] at hret ⊢
    split
    · rename_i h; exact absurd h (hmp p (List.mem_cons_self _ _))
    · rename_i postData hp
      simp only [hp] at hret
      split
      · rfl
      · rename_i hins
        simp only [hins] at hret
        exact ih _ _ (fun q hq => hmp q (List.mem_cons_of_mem _ hq)) hret

/-- The part of C1 that holds: when every post can be marshalled, a call of `savePostsToDB`
that returns an error leaves the store as it was. -/
theorem savePostsToDB_failure_keeps_store (f : Faults) (mp : Post → Option String) (db : Store)
    (aturi : String) (newPosts : List Post) (m : FeedGeneratorMetadata)
    (hmp : ∀ p ∈ newPosts, mp p ≠ none)
    (hret : (savePostsToDB f mp db aturi newPosts m).ret ≠ none) :
    (savePostsToDB f mp db aturi newPosts m).db = db := by
  unfold savePostsToDB at hret ⊢
  split
  · rfl
  · simp only at hret ⊢
    rename_i hb
    simp only [hb] at hret
    split
    · rfl
    · rename_i herr
      simp only [herr] at hret
      unfold commitTx
      have hab : (saveBody f mp db aturi newPosts m).tx.aborted = true := by
        unfold saveBody at herr hret ⊢
        simp only at herr hret ⊢
        split
        · rename_i h1; simp [h1] at herr
        · split
          · rfl
          · rename_i h1 h2
            simp only [h1, h2] at hret
            exact insertLoop_failure_aborts _ _ _ _ _ _ hmp hret
      simp [hab]

/-! ## Persistence failures and the chain -/

/-- Claim C1 (fails on the code): when `json.Marshal` of a post fails inside the insert loop
of `savePostsToDB`, the error is stored in the loop-local `err`, the deferred function sees the
function-scope `err` still nil and commits.  At the third page of a feed the call returns
`error marshalling post data`, yet the transaction is committed, no rollback is issued and
the stored FeedState holds the ContentID of the third page instead of the one written for
pages 1-2. -/
theorem savePostsToDB_commits_after_post_marshal_error :
    savePostsToDB noFaults marshalFailsEnv.marshalPost
        ⟨[(feedUri, ⟨["u1", "u2"]⟩)], [("u1", "post-1"), ("u2", "post-2")]⟩ feedUri [post3]
        ⟨["u1", "u2", "u3"]⟩ =
      ⟨some "error marshalling post data",
        ⟨[(feedUri, ⟨["u1", "u2", "u3"]⟩)], [("u1", "post-1"), ("u2", "post-2")]⟩,
        [Event.txBegin, Event.execUpsert feedUri ⟨["u1", "u2", "u3"]⟩, Event.txCommit]⟩ ∧
    (worker marshalFailsEnv emptyStore feedUri 5).outcome =
      .returned (some "error marshalling post data") ∧
    writes (worker marshalFailsEnv emptyStore feedUri 5).trace =
      [⟨["u1"]⟩, ⟨["u1", "u2"]⟩, ⟨["u1", "u2", "u3"]⟩] ∧
    knownIds (worker marshalFailsEnv emptyStore feedUri 5).db feedUri = ["u1", "u2", "u3"] ∧
    (worker marshalFailsEnv emptyStore feedUri 5).db.posts =
      [("u1", "post-1"), ("u2", "post-2")] ∧
    commits (worker marshalFailsEnv emptyStore feedUri 5).trace = 3 ∧
    Event.txRollback ∉ (worker marshalFailsEnv emptyStore feedUri 5).trace := by
  decide

/-- Claim C2 (fails on the code): when the commit of a page fails, `savePostsToDB` still
returns nil (its result is unnamed, so `err = tx.Commit()` in the deferred function is lost),
nothing of the page is stored, and `worker` goes on to request the next page and ends without
an error. -/
theorem savePostsToDB_drops_commit_error :
    savePostsToDB (commitFailsEnv.faults 0) commitFailsEnv.marshalPost emptyStore feedUri
        [post1] ⟨["u1"]⟩ =
      ⟨none, emptyStore,
        [Event.txBegin, Event.execUpsert feedUri ⟨["u1"]⟩, Event.execInsert "u1" "post-1",
          Event.txCommit]⟩ ∧
    requests (worker commitFailsEnv emptyStore feedUri 5).trace = ["", "c1", "c2"] ∧
    (worker commitFailsEnv emptyStore feedUri 5).outcome = .returned none ∧
    (worker commitFailsEnv emptyStore feedUri 5).db =
      ⟨[(feedUri, ⟨["u1", "u2", "u3"]⟩)], [("u2", "post-2"), ("u3", "post-3")]⟩ := by
  decide

/-- Claim C3: on an acyclic chain of `n` pages (page `k` is served for the cursor of page
`k - 1`, pages before the last return pairwise distinct cursors, the last page returns none)
`worker` never requests more than `n` pages; and when no cursor contains `null`, every page
has an item that is neither stored as known nor part of an earlier page, and every load and
persist succeeds, then with fuel for `n` passes `worker` returns nil after exactly the `n`
requests of the chain and `n` commits, the stored FeedState holds every ContentID of every
page, and every item not known at the start has a row in `posts`. -/
theorem worker_acyclic_chain (env : Env) (db : Store) (uri : String) (n : Nat)
    (pages : Nat → FeedData) (c : Nat → String) (hn : 0 < n)
    (hserve : ∀ k, k < n → env.getFeed k (cursorAt c k) = .ok (pages k))
    (hcursor : ∀ k, k < n → (pages k).Cursor = if k + 1 < n then some (c k) else none)
    (hdistinct : ∀ i j, i < j → j + 1 < n → c i ≠ c j) :
    (∀ fuel, (requests (worker env db uri fuel).trace).length ≤ n) ∧
    ((∀ k, k + 1 < n → containsNull (c k) = false) →
      (∀ k, k < n → ∃ p ∈ (pages k).Feed, p.Uri ∉ knownIds db uri ∧
        ∀ j, j < k → ∀ q ∈ (pages j).Feed, q.Uri ≠ p.Uri) →
      env.allSucceed →
      ∀ fuel, n ≤ fuel →
        (worker env db uri fuel).outcome = .returned none ∧
        requests (worker env db uri fuel).trace = (List.range n).map (cursorAt c) ∧
        commits (worker env db uri fuel).trace = n ∧
        (∀ k, k < n → ∀ p ∈ (pages k).Feed,
          p.Uri ∈ knownIds (worker env db uri fuel).db uri ∧
          (p.Uri ∉ knownIds db uri →
            ∃ row ∈ (worker env db uri fuel).db.posts, row.1 = p.Uri))) := by
  constructor
  · intro fuel
    unfold worker
    cases fetchMetadata env.queryFails db uri with
    | error e => simp [requests]
    | ok metadata =>
      simp only
      exact chain_bound env uri n pages c hserve hcursor fuel _ hn rfl rfl
  · intro hnull hnew hok fuel hfuel
    have hload : fetchMetadata env.queryFails db uri = .ok ⟨knownIds db uri⟩ := by
      rw [hok.1]; exact fetchMetadata_ok db uri
    unfold worker
    rw [hload]
    simp only
    have hinit : Persisted db uri pages c 0 (knownIds db uri) db [Event.query uri] :=
      ⟨fun x hx => Or.inl hx, rfl, rfl, rfl, fun j hj => by omega, fun x hx => Or.inl hx⟩
    obtain ⟨hout, M, hper⟩ := chain_exact env db uri n pages c hserve hcursor hdistinct hnull
      hnew hok n fuel (initState db uri ⟨knownIds db uri⟩) (by simp [initState]) hn hfuel rfl
      (by simp [initState]) hinit
    refine ⟨hout, hper.reqs, hper.commitCount, ?_⟩
    intro k hk p hp
    have hpM := hper.covered k hk p hp
    refine ⟨by rw [hper.stored]; exact hpM, fun hnk => ?_⟩
    rcases hper.rows _ hpM with h' | h'
    · exact absurd h' hnk
    · exact h'

theorem chainEnv_allSucceed : chainEnv.allSucceed :=
  ⟨rfl, fun _ => ⟨rfl, rfl, rfl, fun _ => rfl, rfl⟩, fun p => by simp [chainEnv]⟩

theorem chainPages_cursor :
    ∀ k, k < 3 → (chainPages k).Cursor = if k + 1 < 3 then some (chainCursor k) else none := by
  intro k hk
  interval_cases k <;> rfl

theorem chainPages_new :
    ∀ k, k < 3 → ∃ p ∈ (chainPages k).Feed, p.Uri ∉ knownIds emptyStore feedUri ∧
      ∀ j, j < k → ∀ q ∈ (chainPages j).Feed, q.Uri ≠ p.Uri := by
  intro k hk
  interval_cases k
  · exact ⟨post1, by simp [chainPages], by simp [knownIds, emptyStore, lookupMetadata],
      fun j hj => by omega⟩
  · refine ⟨post2, by simp [chainPages], by simp [knownIds, emptyStore, lookupMetadata], ?_⟩
    intro j hj q hq
    interval_cases j
    simp only [chainPages, List.mem_singleton] at hq
    subst hq
    decide
  · refine ⟨post3, by simp [chainPages], by simp [knownIds, emptyStore, lookupMetadata], ?_⟩
    intro j hj q hq
    interval_cases j <;>
    · simp only [chainPages, List.mem_singleton] at hq
      subst hq
      decide

theorem chainCursor_distinct : ∀ i j, i < j → j + 1 < 3 → chainCursor i ≠ chainCursor j := by
  intro i j hij hj
  have h1 : j = 1 := by omega
  have h0 : i = 0 := by omega
  subst h1 h0
  decide

theorem chainCursor_no_null : ∀ k, k + 1 < 3 → containsNull (chainCursor k) = false := by
  intro k hk
  have hk2 : k < 2 := by omega
  interval_cases k <;> decide

/-- Witness of C3: the three-page chain `c1`, `c2`, none served to an empty store. -/
theorem worker_acyclic_chain_witness :
    (requests (worker chainEnv emptyStore feedUri 7).trace).length ≤ 3 ∧
    ((worker chainEnv emptyStore feedUri 3).outcome = .returned none ∧
      requests (worker chainEnv emptyStore feedUri 3).trace =
        (List.range 3).map (cursorAt chainCursor) ∧
      commits (worker chainEnv emptyStore feedUri 3).trace = 3 ∧
      (∀ k, k < 3 → ∀ p ∈ (chainPages k).Feed,
        p.Uri ∈ knownIds (worker chainEnv emptyStore feedUri 3).db feedUri ∧
        (p.Uri ∉ knownIds emptyStore feedUri →
          ∃ row ∈ (worker chainEnv emptyStore feedUri 3).db.posts, row.1 = p.Uri))) :=
  ⟨(worker_acyclic_chain chainEnv emptyStore feedUri 3 chainPages chainCursor (by decide)
      (fun _ _ => rfl) chainPages_cursor chainCursor_distinct).1 7,
    (worker_acyclic_chain chainEnv emptyStore feedUri 3 chainPages chainCursor (by decide)
      (fun _ _ => rfl) chainPages_cursor chainCursor_distinct).2 chainCursor_no_null
      chainPages_new chainEnv_allSucceed 3 (le_refl 3)⟩

/-! ## Remaining properties -/

/-- Claim C7: when the metadata is loaded and the first page has no item and carries a cursor,
`worker` returns nil after that single request, without any database call and with the store
unchanged. -/
theorem worker_empty_feed (env : Env) (db : Store) (uri c : String) (fuel : Nat)
    (hfuel : 0 < fuel) (hq : env.queryFails = false)
    (hpage : env.getFeed 0 "" = .ok ⟨some c, []⟩) :
    worker env db uri fuel = ⟨.returned none, db, [Event.query uri, Event.getFeed ""]⟩ := by
  obtain ⟨n, rfl⟩ : ∃ n, fuel = n + 1 := ⟨fuel - 1, by omega⟩
  unfold worker fetchMetadata
  simp only [hq, Bool.false_eq_true, if_false]
  cases lookupMetadata db.feed_generators uri <;>
    simp [workerLoop, iteration, initState, hpage]

/-- Witness of C4: the cursors `A`, `B`, `A`, ... with a new post on every page. -/
theorem worker_two_cycle_stops_witness :
    (requests (worker oscillatingEnv emptyStore feedUri 10).trace).length ≤ 3 ∧
    ∃ e, (worker oscillatingEnv emptyStore feedUri 10).outcome = .returned e :=
  ⟨(worker_two_cycle_stops oscillatingEnv emptyStore feedUri "A" "B"
      (fun k _ output h => by
        simp only [oscillatingEnv, Except.ok.injEq] at h
        rw [← h]) 10).1,
    (worker_two_cycle_stops oscillatingEnv emptyStore feedUri "A" "B"
      (fun k _ output h => by
        simp only [oscillatingEnv, Except.ok.injEq] at h
        rw [← h]) 10).2 (by decide)⟩

/-- Witness of C5: two runs over the three-page chain, starting from an empty store. -/
theorem worker_idempotent_witness :
    (worker chainEnv (worker chainEnv emptyStore feedUri 5).db feedUri 5).db =
      (worker chainEnv emptyStore feedUri 5).db ∧
    ∃ e, (worker chainEnv (worker chainEnv emptyStore feedUri 5).db feedUri 5).outcome =
      .returned e :=
  worker_idempotent chainEnv emptyStore feedUri 5 5 chainEnv_allSucceed ⟨none, by decide⟩
    (by decide)

/-- Claim C6: every FeedState a run of `worker` writes contains the FeedState loaded at the
start of the run and every FeedState written earlier in the run, and the stored `known_ids`
after the run contain the stored `known_ids` before it. -/
theorem worker_known_ids_monotone (env : Env) (db : Store) (uri : String) (fuel : Nat) :
    (∀ loaded, fetchMetadata env.queryFails db uri = .ok loaded →
      ∀ m ∈ writes (worker env db uri fuel).trace, loaded.PostURIs ⊆ m.PostURIs) ∧
    List.Pairwise (fun a b : FeedGeneratorMetadata => a.PostURIs ⊆ b.PostURIs)
      (writes (worker env db uri fuel).trace) ∧
    knownIds db uri ⊆ knownIds (worker env db uri fuel).db uri := by
  unfold worker
  cases hq : env.queryFails with
  | true =>
    simp only [fetchMetadata, if_true]
    exact ⟨fun loaded h => by simp at h, by simp [writes], fun x hx => hx⟩
  | false =>
    rw [fetchMetadata_ok]
    simp only
    obtain ⟨M, h1, -, h3, h4⟩ := workerLoop_good env uri (knownIds db uri) fuel
      (initState db uri ⟨knownIds db uri⟩)
      ⟨fun x hx => hx, fun x hx => hx, by simp [initState, writes], by simp [initState, writes]⟩
    refine ⟨?_, h4, h1⟩
    intro loaded hl m hm
    simp only [Except.ok.injEq] at hl
    rw [← hl]
    exact (h3 m hm).1

/-- Witness of C7: an empty first page with the cursor `c1`. -/
theorem worker_empty_feed_witness :
    worker emptyFeedEnv emptyStore feedUri 3 =
      ⟨.returned none, emptyStore, [Event.query feedUri, Event.getFeed ""]⟩ :=
  worker_empty_feed emptyFeedEnv emptyStore feedUri "c1" 3 (by decide) rfl rfl

/-- Claim C8 as written fails on a page that carries the same new ContentID twice: the claim
keeps both items, `worker` keeps the first only. -/
theorem dedup_not_plain_filter :
    ¬ ((dedup [⟨"u1", "post-1"⟩, ⟨"u1", "repost-1"⟩] []).1 =
          [(⟨"u1", "post-1"⟩ : Post), ⟨"u1", "repost-1"⟩].filter
            (fun p => !contains [] p.Uri) ∧
        (dedup [⟨"u1", "post-1"⟩, ⟨"u1", "repost-1"⟩] []).2 =
          [] ++ ([(⟨"u1", "post-1"⟩ : Post), ⟨"u1", "repost-1"⟩].filter
            (fun p => !contains [] p.Uri)).map Post.Uri) := by
  decide

/-- Claim C8, amended: the new items of a page are its items whose ContentID is neither in
the `known_ids` held when the page is fetched nor carried by an earlier item of the same
page, in arrival order; and `known_ids` after the step are the old ones followed by the
ContentIDs of those new items in arrival order. -/
theorem dedup_first_occurrences (feed : List Post) (known : List String) :
    (dedup feed known).1 =
      (feed.enum.filter (fun ip =>
        !contains known ip.2.Uri && !contains ((feed.take ip.1).map Post.Uri) ip.2.Uri)).map
        Prod.snd ∧
    (dedup feed known).2 = known ++ (dedup feed known).1.map Post.Uri :=
  ⟨dedup_fst_enum feed known, dedup_snd feed known⟩

/-- A cursor with `null` inside ends the run after the page that returned it. -/
theorem worker_stops_at_null_cursor :
    containsNull "abcnullxyz" = true ∧ containsNull "abcnulxyz" = false ∧
    requests (worker nullCursorEnv emptyStore feedUri 5).trace = [""] ∧
    (worker nullCursorEnv emptyStore feedUri 5).outcome = .returned none ∧
    commits (worker nullCursorEnv emptyStore feedUri 5).trace = 1 := by
  decide

/-- Witness of C9: the state of the three-page chain after its first page, and its second
page. -/
theorem worker_cursor_advance_witness :
    (chainState1.prevCursors =
        (accepted chainState1).drop ((accepted chainState1).length - 2) ∧
      chainState1.prevCursors.length ≤ 2) ∧
    ((∃ run, iteration chainEnv feedUri chainState1 = .inl run) ↔
      ((chainPages 1).Cursor = none ∨
        ∃ c, (chainPages 1).Cursor = some c ∧
          ((∃ pre post : String, c = pre ++ "null" ++ post) ∨
            c ∈ chainState1.prevCursors))) ∧
    (∀ run, iteration chainEnv feedUri chainState1 = .inl run →
      run.outcome = .returned none) ∧
    (∀ st', iteration chainEnv feedUri chainState1 = .inr st' →
      (chainPages 1).Cursor = some st'.cursor ∧ st'.page = chainState1.page + 1) :=
  ⟨(worker_cursor_advance chainEnv emptyStore feedUri ⟨[]⟩ 1 chainState1 (by decide)).1,
    (worker_cursor_advance chainEnv emptyStore feedUri ⟨[]⟩ 1 chainState1 (by decide)).2
      (chainPages 1) rfl (by decide) (by decide) (by decide)⟩

/-- Witness of C10: a server cycling through the cursors `x`, `y`, `z`; the second request
for `x` is the fifth and last call of the run. -/
theorem worker_repeated_cursor_stops_witness :
    requests (worker cycleEnv emptyStore feedUri 9).trace = ["", "x", "y", "z"] ++ "x" :: [] ∧
    ([] = ([] : List String) ∧
      (worker cycleEnv emptyStore feedUri 9).outcome = .returned none ∧
      (worker cycleEnv emptyStore feedUri 9).trace.getLast? = some (Event.getFeed "x")) ∧
    (requests (worker cycleEnv emptyStore feedUri 9).trace).count "x" ≤ 2 :=
  ⟨by decide,
    (worker_repeated_cursor_stops cycleEnv emptyStore feedUri 9 (fun _ _ => rfl)).1
      ["", "x", "y", "z"] [] "x" (by decide) (by decide),
    (worker_repeated_cursor_stops cycleEnv emptyStore feedUri 9 (fun _ _ => rfl)).2 "x"⟩

end FeedTracker
